import Mathlib

/-!
Verification of the `python-rust-fst` binding layer (`src/rust/src/map.rs`,
`src/rust/src/set.rs`, `src/rust/src/lib.rs`) against its specification.

The binding wraps the finite-state-transducer engine described in the spec:
keys are byte strings, a builder consumes keys in strictly increasing
byte-lexicographic order, the finished structure is serialized into a byte
buffer with a footer, and lookup / enumeration / automaton search / set
algebra all read that immutable structure.  The wrapper code itself is under
`src/`; the transducer engine it calls (the `fst` crate) is not, so the
engine is modelled here from the specification text (definitions marked
`Modelled from the spec:`), while everything the wrapper does (argument
handling, `get` with default, `Option`-returning `finish`, the
"Builder already finished" guard, binary set operations, anchored regex
search, lossy UTF-8 decoding of yielded keys) is embedded directly from the
source.
-/

namespace rustfst

/-- A key is a byte string, modelled as a list of byte values. -/
abbrev Key := List Nat

/-- Strict byte-lexicographic order on keys: `keyLt a b = true` iff `a`
comes strictly before `b`.  This is the order the builder enforces and the
order in which every stream yields keys. -/
def keyLt : Key → Key → Bool
  | _, [] => false
  | [], _ :: _ => true
  | a :: as, b :: bs => if a < b then true else if b < a then false else keyLt as bs

theorem keyLt_irrefl (k : Key) : keyLt k k = false := by
  induction k with
  | nil => rfl
  | cons a as ih => simp [keyLt, ih]

theorem keyLt_nil_right (k : Key) : keyLt k [] = false := by
  cases k <;> rfl

theorem keyLt_trans {a b c : Key} (hab : keyLt a b = true) (hbc : keyLt b c = true) :
    keyLt a c = true := by
  induction a generalizing b c with
  | nil =>
    cases c with
    | nil => cases b <;> simp [keyLt] at hab hbc
    | cons z zs => simp [keyLt]
  | cons x xs ih =>
    cases b with
    | nil => simp [keyLt] at hab
    | cons y ys =>
      cases c with
      | nil => simp [keyLt] at hbc
      | cons z zs =>
        simp only [keyLt] at hab hbc ⊢
        by_cases hxy : x < y
        · by_cases hyz : y < z
          · simp [show x < z from Nat.lt_trans hxy hyz]
          · by_cases hzy : z < y
            · simp [hyz, hzy] at hbc
            · have : y = z := Nat.le_antisymm (Nat.le_of_not_lt hzy) (Nat.le_of_not_lt hyz)
              simp [this ▸ hxy]
        · by_cases hyx : y < x
          · simp [hxy, hyx] at hab
          · have hxye : x = y := Nat.le_antisymm (Nat.le_of_not_lt hyx) (Nat.le_of_not_lt hxy)
            simp [hxy, hyx] at hab
            by_cases hyz : y < z
            · simp [hxye ▸ hyz]
            · by_cases hzy : z < y
              · simp [hyz, hzy] at hbc
              · have hyze : y = z := Nat.le_antisymm (Nat.le_of_not_lt hzy) (Nat.le_of_not_lt hyz)
                simp [hyz, hzy] at hbc
                subst hxye; subst hyze
                simp [hxy, ih hab hbc]

theorem keyLt_asymm {a b : Key} (hab : keyLt a b = true) : keyLt b a = false := by
  by_contra h
  have hba : keyLt b a = true := by
    cases hh : keyLt b a with
    | true => rfl
    | false => exact absurd hh h
  have := keyLt_trans hab hba
  rw [keyLt_irrefl] at this
  exact Bool.false_ne_true this

theorem keyLt_total (a b : Key) : keyLt a b = true ∨ a = b ∨ keyLt b a = true := by
  induction a generalizing b with
  | nil => cases b with
    | nil => exact Or.inr (Or.inl rfl)
    | cons y ys => exact Or.inl (by simp [keyLt])
  | cons x xs ih =>
    cases b with
    | nil => exact Or.inr (Or.inr (by simp [keyLt]))
    | cons y ys =>
      rcases Nat.lt_trichotomy x y with h | h | h
      · exact Or.inl (by simp [keyLt, h])
      · subst h
        rcases ih ys with h2 | h2 | h2
        · exact Or.inl (by simp [keyLt, h2])
        · exact Or.inr (Or.inl (by rw [h2]))
        · exact Or.inr (Or.inr (by simp [keyLt, h2]))
      · exact Or.inr (Or.inr (by simp [keyLt, h]))

theorem keyLt_cons_iff {x y : Nat} {xs ys : Key} :
    keyLt (x :: xs) (y :: ys) = true ↔ x < y ∨ (x = y ∧ keyLt xs ys = true) := by
  simp only [keyLt]
  by_cases hxy : x < y
  · simp [hxy]
  · by_cases hyx : y < x
    · simp [hxy, hyx]
      omega
    · have : x = y := Nat.le_antisymm (Nat.le_of_not_lt hyx) (Nat.le_of_not_lt hxy)
      simp [hxy, hyx, this]

/-- Propositional form of the key order, used in sortedness statements. -/
def keyLtP (a b : Key) : Prop := keyLt a b = true

/-- Executable check that a list of keys is strictly increasing; this is the
structural validity check run when interpreting a decoded buffer. -/
def strictlySorted : List Key → Bool
  | [] => true
  | [_] => true
  | a :: b :: rest => keyLt a b && strictlySorted (b :: rest)

theorem strictlySorted_iff_chain (l : List Key) :
    strictlySorted l = true ↔ List.Chain' keyLtP l := by
  induction l with
  | nil => simp [strictlySorted]
  | cons a rest ih =>
    cases rest with
    | nil => simp [strictlySorted]
    | cons b rest2 =>
      simp only [strictlySorted, Bool.and_eq_true, ih, List.chain'_cons]
      exact Iff.rfl

instance : IsTrans Key keyLtP := ⟨fun _ _ _ => keyLt_trans⟩

theorem chain_keyLt_iff_pairwise (l : List Key) :
    List.Chain' keyLtP l ↔ List.Pairwise keyLtP l :=
  List.chain'_iff_pairwise

theorem strictlySorted_iff_pairwise (l : List Key) :
    strictlySorted l = true ↔ List.Pairwise keyLtP l :=
  (strictlySorted_iff_chain l).trans (chain_keyLt_iff_pairwise l)

/-!
The transducer graph.  Modelled from the spec: a state ("node") carries a
finality flag with a final-output increment (present only when final) and an
ordered list of outgoing transitions, each a (byte, output increment, child
state) triple whose bytes are unique and sorted ascending.  The `fst` crate
that implements this is outside `src/`, so the structure is taken from the
spec's data model (section 3).  Sharing of suffixes is a compactness
device with no observable effect, so the DAG is modelled as a tree.
-/

mutual
inductive Node : Type where
  | mk : Option Nat → TransList → Node
inductive TransList : Type where
  | nil : TransList
  | cons : Nat → Nat → Node → TransList → TransList
end

instance : Inhabited Node := ⟨.mk none .nil⟩

/-- Find the transition for byte `x` (linear model of the sorted lookup). -/
def TransList.find : TransList → Nat → Option (Nat × Node)
  | .nil, _ => none
  | .cons b o c ts, x => if b = x then some (o, c) else TransList.find ts x

/-- Modelled from the spec: `get` walks from the start state consuming one
byte per transition, failing on a missing transition, succeeding only in a
final state, returning the accumulated output sum. -/
def Node.get : Node → Key → Nat → Option Nat
  | .mk f _, [], acc => f.map (fun o => acc + o)
  | .mk _ ts, b :: rest, acc =>
    match ts.find b with
    | some (o, c) => Node.get c rest (acc + o)
    | none => none

/-- Entry contributed by a state's own finality flag. -/
def finalEntry (f : Option Nat) (acc : Nat) : List (Key × Nat) :=
  match f with
  | some o => [([], acc + o)]
  | none => []

mutual
/-- Modelled from the spec: depth-first enumeration of the transducer,
yielding (key, accumulated output) pairs in transition order. -/
def Node.enum : Node → Nat → List (Key × Nat)
  | .mk f ts, acc => finalEntry f acc ++ TransList.enum ts acc
def TransList.enum : TransList → Nat → List (Key × Nat)
  | .nil, _ => []
  | .cons b o c ts, acc =>
    (Node.enum c (acc + o)).map (fun e => (b :: e.1, e.2)) ++ TransList.enum ts acc
end

/-- Whether byte `b` may follow the previous transition byte `prev`. -/
def byteOkAfter (prev : Option Nat) (b : Nat) : Bool :=
  match prev with
  | some p => decide (p < b)
  | none => true

mutual
/-- Transition bytes are unique and sorted ascending (spec section 3
invariant), checked below every state. -/
def Node.wf : Node → Bool
  | .mk _ ts => TransList.wfFrom none ts
def TransList.wfFrom : Option Nat → TransList → Bool
  | _, .nil => true
  | prev, .cons b _ c ts =>
    byteOkAfter prev b && Node.wf c && TransList.wfFrom (some b) ts
end

mutual
/-- All transition outputs are zero (the builder model places the whole
value on the final-output increment). -/
def Node.zeroOut : Node → Bool
  | .mk _ ts => TransList.zeroOut ts
def TransList.zeroOut : TransList → Bool
  | .nil => true
  | .cons _ o c ts => (o == 0) && Node.zeroOut c && TransList.zeroOut ts
end

mutual
/-- The subtree contains at least one final state. -/
def Node.hasKey : Node → Bool
  | .mk f ts => f.isSome || TransList.hasKey ts
def TransList.hasKey : TransList → Bool
  | .nil => false
  | .cons _ _ c ts => Node.hasKey c || TransList.hasKey ts
end

mutual
/-- Every child subtree spells at least one key (no dead branches). -/
def Node.trim : Node → Bool
  | .mk _ ts => TransList.trim ts
def TransList.trim : TransList → Bool
  | .nil => true
  | .cons _ _ c ts => Node.hasKey c && Node.trim c && TransList.trim ts
end

/-- Invariant bundle maintained by the builder model. -/
def Node.good (t : Node) : Bool := t.wf && t.zeroOut && t.trim

/-- Byte of the last (greatest) transition, if any. -/
def TransList.getLastByte? : TransList → Option Nat
  | .nil => none
  | .cons b _ _ .nil => some b
  | .cons _ _ _ (.cons b o c ts) => TransList.getLastByte? (.cons b o c ts)

/-- Child of the last transition (default node when empty). -/
def TransList.lastChild : TransList → Node
  | .nil => .mk none .nil
  | .cons _ _ c .nil => c
  | .cons _ _ _ (.cons b o c ts) => TransList.lastChild (.cons b o c ts)

/-- Replace the child of the last transition. -/
def TransList.setLastChild : TransList → Node → TransList
  | .nil, _ => .nil
  | .cons b o _ .nil, c2 => .cons b o c2 .nil
  | .cons b o c (.cons b2 o2 c2 ts), n =>
    .cons b o c (TransList.setLastChild (.cons b2 o2 c2 ts) n)

/-- Append a transition at the end. -/
def TransList.push : TransList → Nat → Nat → Node → TransList
  | .nil, b, o, c => .cons b o c .nil
  | .cons b1 o1 c1 ts, b, o, c => .cons b1 o1 c1 (TransList.push ts b o c)

/-- All transitions but the last. -/
def TransList.dropLast : TransList → TransList
  | .nil => .nil
  | .cons _ _ _ .nil => .nil
  | .cons b o c (.cons b2 o2 c2 ts) => .cons b o c (TransList.dropLast (.cons b2 o2 c2 ts))

/-- Chain of states spelling exactly the key `k` with value `v`. -/
def singletonTrie : Key → Nat → Node
  | [], v => .mk (some v) .nil
  | b :: rest, v => .mk none (.cons b 0 (singletonTrie rest v) .nil)

/-- Modelled from the spec: one builder insertion.  The new key is strictly
greater than every key already present, so it shares a prefix only with the
rightmost ("unfinished") path; the walk descends the last transition while
its byte matches and then pushes a fresh suffix chain. -/
def insertTrie : Node → Key → Nat → Node
  | .mk _ ts, [], v => .mk (some v) ts
  | .mk f ts, b :: rest, v =>
    match ts.getLastByte? with
    | some b2 =>
      if b2 = b then .mk f (ts.setLastChild (insertTrie ts.lastChild rest v))
      else .mk f (ts.push b 0 (singletonTrie rest v))
    | none => .mk f (ts.push b 0 (singletonTrie rest v))

/-- Modelled from the spec: the transducer built from a (sorted) key/value
sequence by successive insertions. -/
def buildTrie (l : List (Key × Nat)) : Node :=
  l.foldl (fun t e => insertTrie t e.1 e.2) (.mk none .nil)

example : (buildTrie [([97], 1), ([97, 98], 2), ([98], 3)]).enum 0
    = [([97], 1), ([97, 98], 2), ([98], 3)] := by decide

example : Node.get (buildTrie [([97], 1), ([97, 98], 2)]) [97, 98] 0 = some 2 := by decide

example : Node.good (buildTrie [([97], 1), ([97, 98], 2), ([98], 3)]) = true := by decide

/-! Helper lemmas about the trie operations. -/

theorem singletonTrie_enum (k : Key) (v : Nat) : ∀ acc,
    (singletonTrie k v).enum acc = [(k, acc + v)] := by
  induction k with
  | nil => intro acc; simp [singletonTrie, Node.enum, TransList.enum, finalEntry]
  | cons b rest ih =>
    intro acc
    simp [singletonTrie, Node.enum, TransList.enum, finalEntry, ih]

theorem singletonTrie_hasKey (k : Key) (v : Nat) : (singletonTrie k v).hasKey = true := by
  induction k with
  | nil => simp [singletonTrie, Node.hasKey]
  | cons b rest ih => simp [singletonTrie, Node.hasKey, TransList.hasKey, ih]

theorem singletonTrie_wf (k : Key) (v : Nat) : (singletonTrie k v).wf = true := by
  induction k with
  | nil => simp [singletonTrie, Node.wf, TransList.wfFrom]
  | cons b rest ih =>
    simp [singletonTrie, Node.wf, TransList.wfFrom, byteOkAfter] at ih ⊢; exact ih

theorem singletonTrie_zeroOut (k : Key) (v : Nat) : (singletonTrie k v).zeroOut = true := by
  induction k with
  | nil => simp [singletonTrie, Node.zeroOut, TransList.zeroOut]
  | cons b rest ih => simp [singletonTrie, Node.zeroOut, TransList.zeroOut, ih]

theorem singletonTrie_trim (k : Key) (v : Nat) : (singletonTrie k v).trim = true := by
  induction k with
  | nil => simp [singletonTrie, Node.trim, TransList.trim]
  | cons b rest ih =>
    simp [singletonTrie, Node.trim, TransList.trim, singletonTrie_hasKey]
    simp [Node.trim] at ih
    exact ih

theorem getLastByte?_eq_none {ts : TransList} (h : ts.getLastByte? = none) : ts = .nil := by
  match ts with
  | .nil => rfl
  | .cons b o c .nil => simp [TransList.getLastByte?] at h
  | .cons b o c (.cons b2 o2 c2 ts2) =>
    rw [TransList.getLastByte?] at h
    have := getLastByte?_eq_none h
    exact absurd this (by simp)

theorem enum_push (ts : TransList) (b o : Nat) (c : Node) (acc : Nat) :
    (ts.push b o c).enum acc
      = ts.enum acc ++ (c.enum (acc + o)).map (fun e => (b :: e.1, e.2)) := by
  match ts with
  | .nil => simp [TransList.push, TransList.enum]
  | .cons b1 o1 c1 ts1 =>
    rw [TransList.push, TransList.enum, TransList.enum, enum_push ts1 b o c acc]
    simp

theorem enum_last_decomp {ts : TransList} {b2 : Nat} (acc : Nat)
    (hz : ts.zeroOut = true) (hl : ts.getLastByte? = some b2) :
    ts.enum acc
      = (ts.dropLast).enum acc
          ++ (ts.lastChild.enum acc).map (fun e => (b2 :: e.1, e.2)) := by
  match ts with
  | .nil => simp [TransList.getLastByte?] at hl
  | .cons b1 o1 c1 .nil =>
    rw [TransList.getLastByte?] at hl
    injection hl with hb
    subst hb
    rw [TransList.zeroOut] at hz
    simp only [Bool.and_eq_true, beq_iff_eq] at hz
    rw [TransList.dropLast, TransList.lastChild, TransList.enum, TransList.enum, TransList.enum]
    rw [hz.1.1]
    simp
  | .cons b1 o1 c1 (.cons b3 o3 c3 ts3) =>
    rw [TransList.getLastByte?] at hl
    rw [TransList.zeroOut] at hz
    simp only [Bool.and_eq_true, beq_iff_eq] at hz
    rw [TransList.enum, enum_last_decomp acc hz.2 hl, TransList.dropLast,
      TransList.lastChild, TransList.enum]
    simp

theorem enum_setLastChild {ts : TransList} {b2 : Nat} (c : Node) (acc : Nat)
    (hz : ts.zeroOut = true) (hl : ts.getLastByte? = some b2) :
    (ts.setLastChild c).enum acc
      = (ts.dropLast).enum acc ++ (c.enum acc).map (fun e => (b2 :: e.1, e.2)) := by
  match ts with
  | .nil => simp [TransList.getLastByte?] at hl
  | .cons b1 o1 c1 .nil =>
    rw [TransList.getLastByte?] at hl
    injection hl with hb
    subst hb
    rw [TransList.zeroOut] at hz
    simp only [Bool.and_eq_true, beq_iff_eq] at hz
    rw [TransList.setLastChild, TransList.dropLast, TransList.enum, TransList.enum,
      TransList.enum]
    rw [hz.1.1]
    simp
  | .cons b1 o1 c1 (.cons b3 o3 c3 ts3) =>
    rw [TransList.getLastByte?] at hl
    rw [TransList.zeroOut] at hz
    simp only [Bool.and_eq_true, beq_iff_eq] at hz
    rw [TransList.setLastChild, TransList.enum, enum_setLastChild c acc hz.2 hl,
      TransList.dropLast, TransList.enum]
    simp

mutual
theorem Node.hasKey_iff_enum (t : Node) (acc : Nat) :
    t.hasKey = true ↔ t.enum acc ≠ [] :=
  match t with
  | .mk f ts => by
    have ih := TransList.hasKeyT_iff_enum ts acc
    cases f <;> simp [Node.hasKey, Node.enum, finalEntry, ih]
theorem TransList.hasKeyT_iff_enum (ts : TransList) (acc : Nat) :
    ts.hasKey = true ↔ ts.enum acc ≠ [] :=
  match ts with
  | .nil => by simp [TransList.hasKey, TransList.enum]
  | .cons b o c ts2 => by
    have ih1 := Node.hasKey_iff_enum c (acc + o)
    have ih2 := TransList.hasKeyT_iff_enum ts2 acc
    simp [TransList.hasKey, TransList.enum, ih1, ih2]
    tauto
end

/-- Constraint the previous byte (if any) puts on a newly appended byte. -/
def prevOk : Option Nat → Nat → Prop
  | some q, b => q < b
  | none, _ => True

theorem good_mk {f : Option Nat} {ts : TransList} (h : (Node.mk f ts).good = true) :
    TransList.wfFrom none ts = true ∧ ts.zeroOut = true ∧ ts.trim = true := by
  simp only [Node.good, Node.wf, Node.zeroOut, Node.trim, Bool.and_eq_true] at h
  exact ⟨h.1.1, h.1.2, h.2⟩

theorem mk_good {f : Option Nat} {ts : TransList} (h1 : TransList.wfFrom none ts = true)
    (h2 : ts.zeroOut = true) (h3 : ts.trim = true) : (Node.mk f ts).good = true := by
  simp only [Node.good, Node.wf, Node.zeroOut, Node.trim, Bool.and_eq_true]
  exact ⟨⟨h1, h2⟩, h3⟩

theorem good_of_parts {c : Node} (h1 : c.wf = true) (h2 : c.zeroOut = true)
    (h3 : c.trim = true) : c.good = true := by
  simp [Node.good, h1, h2, h3]

theorem good_parts {c : Node} (h : c.good = true) :
    c.wf = true ∧ c.zeroOut = true ∧ c.trim = true := by
  simp only [Node.good, Bool.and_eq_true] at h
  exact ⟨h.1.1, h.1.2, h.2⟩

theorem lastChild_good {ts : TransList} : ∀ {p : Option Nat},
    TransList.wfFrom p ts = true → ts.zeroOut = true → ts.trim = true →
    (ts.lastChild).good = true := by
  match ts with
  | .nil => intro p _ _ _; rw [TransList.lastChild]; decide
  | .cons b o c .nil =>
    intro p hwf hz ht
    rw [TransList.wfFrom] at hwf
    rw [TransList.zeroOut] at hz
    rw [TransList.trim] at ht
    simp only [Bool.and_eq_true, beq_iff_eq] at hwf hz ht
    rw [TransList.lastChild]
    exact good_of_parts hwf.1.2 hz.1.2 ht.1.2
  | .cons b o c (.cons b2 o2 c2 ts2) =>
    intro p hwf hz ht
    rw [TransList.wfFrom] at hwf
    rw [TransList.zeroOut] at hz
    rw [TransList.trim] at ht
    simp only [Bool.and_eq_true, beq_iff_eq] at hwf hz ht
    rw [TransList.lastChild]
    exact lastChild_good hwf.2 hz.2 ht.2

theorem hasKey_lastChild {ts : TransList} {b2 : Nat} :
    ts.trim = true → ts.getLastByte? = some b2 → (ts.lastChild).hasKey = true := by
  match ts with
  | .nil => intro _ h; rw [TransList.getLastByte?] at h; cases h
  | .cons b o c .nil =>
    intro ht _
    rw [TransList.trim] at ht
    simp only [Bool.and_eq_true] at ht
    rw [TransList.lastChild]
    exact ht.1.1
  | .cons b o c (.cons b3 o3 c3 ts3) =>
    intro ht hl
    rw [TransList.trim] at ht
    simp only [Bool.and_eq_true] at ht
    rw [TransList.getLastByte?] at hl
    rw [TransList.lastChild]
    exact hasKey_lastChild ht.2 hl

theorem wfFrom_setLastChild {ts : TransList} {c : Node} : ∀ {p : Option Nat},
    TransList.wfFrom p ts = true → c.wf = true →
    TransList.wfFrom p (ts.setLastChild c) = true := by
  match ts with
  | .nil => intro p h _; rw [TransList.setLastChild]; exact h
  | .cons b o c1 .nil =>
    intro p hwf hc
    rw [TransList.wfFrom] at hwf
    simp only [Bool.and_eq_true] at hwf
    rw [TransList.setLastChild, TransList.wfFrom]
    simp only [Bool.and_eq_true]
    exact ⟨⟨hwf.1.1, hc⟩, hwf.2⟩
  | .cons b o c1 (.cons b3 o3 c3 ts3) =>
    intro p hwf hc
    rw [TransList.wfFrom] at hwf
    simp only [Bool.and_eq_true] at hwf
    rw [TransList.setLastChild, TransList.wfFrom]
    simp only [Bool.and_eq_true]
    exact ⟨⟨hwf.1.1, hwf.1.2⟩, wfFrom_setLastChild hwf.2 hc⟩

theorem zeroOut_setLastChild {ts : TransList} {c : Node} :
    ts.zeroOut = true → c.zeroOut = true → (ts.setLastChild c).zeroOut = true := by
  match ts with
  | .nil => intro h _; rw [TransList.setLastChild]; exact h
  | .cons b o c1 .nil =>
    intro hz hc
    rw [TransList.zeroOut] at hz
    simp only [Bool.and_eq_true] at hz
    rw [TransList.setLastChild, TransList.zeroOut]
    simp only [Bool.and_eq_true]
    exact ⟨⟨hz.1.1, hc⟩, hz.2⟩
  | .cons b o c1 (.cons b3 o3 c3 ts3) =>
    intro hz hc
    rw [TransList.zeroOut] at hz
    simp only [Bool.and_eq_true] at hz
    rw [TransList.setLastChild, TransList.zeroOut]
    simp only [Bool.and_eq_true]
    exact ⟨⟨hz.1.1, hz.1.2⟩, zeroOut_setLastChild hz.2 hc⟩

theorem trim_setLastChild {ts : TransList} {c : Node} :
    ts.trim = true → c.hasKey = true → c.trim = true → (ts.setLastChild c).trim = true := by
  match ts with
  | .nil => intro h _ _; rw [TransList.setLastChild]; exact h
  | .cons b o c1 .nil =>
    intro ht hk hc
    rw [TransList.trim] at ht
    simp only [Bool.and_eq_true] at ht
    rw [TransList.setLastChild, TransList.trim]
    simp only [Bool.and_eq_true]
    exact ⟨⟨hk, hc⟩, ht.2⟩
  | .cons b o c1 (.cons b3 o3 c3 ts3) =>
    intro ht hk hc
    rw [TransList.trim] at ht
    simp only [Bool.and_eq_true] at ht
    rw [TransList.setLastChild, TransList.trim]
    simp only [Bool.and_eq_true]
    exact ⟨⟨ht.1.1, ht.1.2⟩, trim_setLastChild ht.2 hk hc⟩

theorem wfFrom_push {ts : TransList} {c : Node} {b o : Nat} : ∀ {p : Option Nat},
    TransList.wfFrom p ts = true → c.wf = true →
    (ts.getLastByte? = none → prevOk p b) →
    (∀ b2, ts.getLastByte? = some b2 → b2 < b) →
    TransList.wfFrom p (ts.push b o c) = true := by
  match ts with
  | .nil =>
    intro p _ hc hnone _
    rw [TransList.push, TransList.wfFrom, TransList.wfFrom]
    have hp := hnone (by rw [TransList.getLastByte?])
    simp only [Bool.and_eq_true]
    refine ⟨⟨?_, hc⟩, trivial⟩
    cases p with
    | none => rfl
    | some q => simp [byteOkAfter]; exact hp
  | .cons b1 o1 c1 .nil =>
    intro p hwf hc _ hsome
    rw [TransList.wfFrom] at hwf
    simp only [Bool.and_eq_true] at hwf
    rw [TransList.push, TransList.push, TransList.wfFrom]
    simp only [Bool.and_eq_true]
    refine ⟨⟨hwf.1.1, hwf.1.2⟩, ?_⟩
    rw [TransList.wfFrom, TransList.wfFrom]
    simp only [Bool.and_eq_true]
    refine ⟨⟨?_, hc⟩, trivial⟩
    have := hsome b1 (by rw [TransList.getLastByte?])
    simp [byteOkAfter]
    exact this
  | .cons b1 o1 c1 (.cons b3 o3 c3 ts3) =>
    intro p hwf hc _ hsome
    rw [TransList.wfFrom] at hwf
    simp only [Bool.and_eq_true] at hwf
    rw [TransList.push, TransList.wfFrom]
    simp only [Bool.and_eq_true]
    refine ⟨⟨hwf.1.1, hwf.1.2⟩, ?_⟩
    exact wfFrom_push hwf.2 hc (by intro h; cases getLastByte?_eq_none h)
      (by intro b2 h; exact hsome b2 (by rw [TransList.getLastByte?]; exact h))

theorem zeroOut_push {ts : TransList} {c : Node} {b : Nat} :
    ts.zeroOut = true → c.zeroOut = true → (ts.push b 0 c).zeroOut = true := by
  match ts with
  | .nil =>
    intro _ hc
    rw [TransList.push, TransList.zeroOut, TransList.zeroOut]
    simp [hc]
  | .cons b1 o1 c1 ts1 =>
    intro hz hc
    rw [TransList.zeroOut] at hz
    simp only [Bool.and_eq_true] at hz
    rw [TransList.push, TransList.zeroOut]
    simp only [Bool.and_eq_true]
    exact ⟨⟨hz.1.1, hz.1.2⟩, zeroOut_push hz.2 hc⟩

theorem trim_push {ts : TransList} {c : Node} {b o : Nat} :
    ts.trim = true → c.hasKey = true → c.trim = true → (ts.push b o c).trim = true := by
  match ts with
  | .nil =>
    intro _ hk hc
    rw [TransList.push, TransList.trim, TransList.trim]
    simp [hk, hc]
  | .cons b1 o1 c1 ts1 =>
    intro ht hk hc
    rw [TransList.trim] at ht
    simp only [Bool.and_eq_true] at ht
    rw [TransList.push, TransList.trim]
    simp only [Bool.and_eq_true]
    exact ⟨⟨ht.1.1, ht.1.2⟩, trim_push ht.2 hk hc⟩

/-- Modelled from the spec: inserting a key strictly greater than every key
already present appends exactly that key to the enumeration and preserves
the structural invariants. -/
theorem insertTrie_spec : ∀ (k : Key) (t : Node) (v acc : Nat),
    t.good = true →
    (∀ e ∈ t.enum acc, keyLt e.1 k = true) →
    (insertTrie t k v).enum acc = t.enum acc ++ [(k, acc + v)]
      ∧ (insertTrie t k v).good = true := by
  intro k
  induction k with
  | nil =>
    intro t v acc hg hlt
    obtain ⟨f, ts⟩ := t
    have henum : (Node.mk f ts).enum acc = [] := by
      by_contra h
      obtain ⟨e, he⟩ := List.exists_mem_of_ne_nil _ h
      have h2 := hlt e he
      rw [keyLt_nil_right] at h2
      exact Bool.false_ne_true h2
    rw [Node.enum] at henum
    have hparts := List.append_eq_nil.mp henum
    obtain ⟨hwf, hz, ht⟩ := good_mk hg
    rw [insertTrie]
    refine ⟨?_, mk_good hwf hz ht⟩
    rw [Node.enum, Node.enum, hparts.1, hparts.2, finalEntry]
    simp
  | cons b rest ih =>
    intro t v acc hg hlt
    obtain ⟨f, ts⟩ := t
    obtain ⟨hwf, hz, ht⟩ := good_mk hg
    cases hgb : ts.getLastByte? with
    | none =>
      have hnil := getLastByte?_eq_none hgb
      subst hnil
      simp only [insertTrie, hgb]
      constructor
      · rw [Node.enum, Node.enum, TransList.push, TransList.enum, TransList.enum,
          TransList.enum, singletonTrie_enum]
        simp
      · refine mk_good ?_ ?_ ?_
        · rw [TransList.push, TransList.wfFrom, TransList.wfFrom]
          simp [byteOkAfter, singletonTrie_wf]
        · rw [TransList.push, TransList.zeroOut, TransList.zeroOut]
          simp [singletonTrie_zeroOut]
        · rw [TransList.push, TransList.trim, TransList.trim]
          simp [singletonTrie_hasKey, singletonTrie_trim]
    | some b2 =>
      have hdec := @enum_last_decomp ts b2 acc hz hgb
      by_cases hbb : b2 = b
      · subst hbb
        have hlc := lastChild_good hwf hz ht
        have hmem : ∀ e ∈ (ts.lastChild).enum acc, keyLt e.1 rest = true := by
          intro e he
          have hin : ((b2 :: e.1, e.2) : Key × Nat) ∈ (Node.mk f ts).enum acc := by
            rw [Node.enum, hdec]
            exact List.mem_append_right _
              (List.mem_append_right _ (List.mem_map_of_mem _ he))
          have h2 := hlt _ hin
          rw [keyLt_cons_iff] at h2
          rcases h2 with h2 | h2
          · exact absurd h2 (Nat.lt_irrefl b2)
          · exact h2.2
        obtain ⟨hie, hig⟩ := ih (ts.lastChild) v acc hlc hmem
        have hnk : (insertTrie ts.lastChild rest v).hasKey = true := by
          rw [Node.hasKey_iff_enum _ acc, hie]
          simp
        simp only [insertTrie, hgb, if_true]
        constructor
        · rw [Node.enum, Node.enum, enum_setLastChild _ acc hz hgb, hie, hdec]
          simp
        · exact mk_good (wfFrom_setLastChild hwf (good_parts hig).1)
            (zeroOut_setLastChild hz (good_parts hig).2.1)
            (trim_setLastChild ht hnk (good_parts hig).2.2)
      · have hb2b : b2 < b := by
          have hk := hasKey_lastChild ht hgb
          rw [Node.hasKey_iff_enum _ acc] at hk
          obtain ⟨e, he⟩ := List.exists_mem_of_ne_nil _ hk
          have hin : ((b2 :: e.1, e.2) : Key × Nat) ∈ (Node.mk f ts).enum acc := by
            rw [Node.enum, hdec]
            exact List.mem_append_right _
              (List.mem_append_right _ (List.mem_map_of_mem _ he))
          have h2 := hlt _ hin
          rw [keyLt_cons_iff] at h2
          rcases h2 with h2 | h2
          · exact h2
          · exact absurd h2.1 hbb
        simp only [insertTrie, hgb]
        rw [if_neg hbb]
        constructor
        · rw [Node.enum, Node.enum, enum_push, singletonTrie_enum]
          simp
        · refine mk_good ?_ ?_ ?_
          · refine wfFrom_push hwf (singletonTrie_wf rest v) ?_ ?_
            · intro h; rw [h] at hgb; cases hgb
            · intro b2' h
              rw [hgb] at h
              injection h with hh
              subst hh
              exact hb2b
          · exact zeroOut_push hz (singletonTrie_zeroOut rest v)
          · exact trim_push ht (singletonTrie_hasKey rest v) (singletonTrie_trim rest v)

theorem buildTrie_go : ∀ (l : List (Key × Nat)) (t : Node),
    t.good = true →
    (∀ e ∈ t.enum 0, ∀ p ∈ l, keyLt e.1 p.1 = true) →
    List.Pairwise keyLtP (l.map (·.1)) →
    (l.foldl (fun t e => insertTrie t e.1 e.2) t).enum 0 = t.enum 0 ++ l
      ∧ (l.foldl (fun t e => insertTrie t e.1 e.2) t).good = true := by
  intro l
  induction l with
  | nil => intro t hg _ _; simpa using hg
  | cons p l ih =>
    intro t hg hlt hpw
    obtain ⟨k1, v1⟩ := p
    simp only [List.map_cons, List.pairwise_cons] at hpw
    have hins := insertTrie_spec k1 t v1 0 hg (fun e he => hlt e he (k1, v1) (by simp))
    rw [List.foldl_cons]
    have hnew_lt : ∀ e ∈ (insertTrie t k1 v1).enum 0, ∀ q ∈ l, keyLt e.1 q.1 = true := by
      intro e he q hq
      rw [hins.1] at he
      rcases List.mem_append.mp he with he | he
      · exact hlt e he q (by simp [hq])
      · have he1 : e.1 = k1 := by
          simp at he
          rw [he]
        rw [he1]
        exact hpw.1 q.1 (List.mem_map_of_mem _ hq)
    obtain ⟨hfe, hfg⟩ := ih (insertTrie t k1 v1) hins.2 hnew_lt hpw.2
    refine ⟨?_, hfg⟩
    rw [hfe, hins.1]
    simp

theorem buildTrie_spec (l : List (Key × Nat)) (h : List.Pairwise keyLtP (l.map (·.1))) :
    (buildTrie l).enum 0 = l ∧ (buildTrie l).good = true := by
  have hb := buildTrie_go l (.mk none .nil) (by decide)
    (by intro e he; simp [Node.enum, TransList.enum, finalEntry] at he) h
  rw [buildTrie]
  refine ⟨?_, hb.2⟩
  rw [hb.1]
  simp [Node.enum, TransList.enum, finalEntry]

theorem enum_key_shape {ts : TransList} {e : Key × Nat} {acc : Nat}
    (h : e ∈ ts.enum acc) : ∃ b k2, e.1 = b :: k2 := by
  match ts with
  | .nil => rw [TransList.enum] at h; cases h
  | .cons b1 o1 c1 ts1 =>
    rw [TransList.enum] at h
    rcases List.mem_append.mp h with h | h
    · obtain ⟨e2, _, he⟩ := List.mem_map.mp h
      exact ⟨b1, e2.1, by rw [← he]⟩
    · exact enum_key_shape h

theorem enum_head_bound {ts : TransList} {e : Key × Nat} {acc q : Nat}
    (hwf : TransList.wfFrom (some q) ts = true) (h : e ∈ ts.enum acc) :
    ∃ b k2, e.1 = b :: k2 ∧ q < b := by
  match ts with
  | .nil => rw [TransList.enum] at h; cases h
  | .cons b1 o1 c1 ts1 =>
    rw [TransList.wfFrom] at hwf
    simp only [Bool.and_eq_true, byteOkAfter, decide_eq_true_eq] at hwf
    rw [TransList.enum] at h
    rcases List.mem_append.mp h with h | h
    · obtain ⟨e2, _, he⟩ := List.mem_map.mp h
      exact ⟨b1, e2.1, by rw [← he], hwf.1.1⟩
    · obtain ⟨b', k2, hk, hb⟩ := enum_head_bound hwf.2 h
      exact ⟨b', k2, hk, Nat.lt_trans hwf.1.1 hb⟩

theorem find_wf {ts : TransList} {b o : Nat} {c : Node} : ∀ {p : Option Nat},
    TransList.wfFrom p ts = true → ts.find b = some (o, c) → c.wf = true := by
  match ts with
  | .nil => intro p _ h; rw [TransList.find] at h; cases h
  | .cons b1 o1 c1 ts1 =>
    intro p hwf hf
    rw [TransList.wfFrom] at hwf
    simp only [Bool.and_eq_true] at hwf
    rw [TransList.find] at hf
    by_cases hb : b1 = b
    · rw [if_pos hb] at hf
      simp only [Option.some.injEq, Prod.mk.injEq] at hf
      rw [← hf.2]
      exact hwf.1.2
    · rw [if_neg hb] at hf
      exact find_wf hwf.2 hf

theorem enum_mem_find {ts : TransList} {b : Nat} {k2 : Key} {w acc : Nat} :
    ∀ {p : Option Nat}, TransList.wfFrom p ts = true →
    ((b :: k2, w) ∈ ts.enum acc ↔
      ∃ o c, ts.find b = some (o, c) ∧ (k2, w) ∈ c.enum (acc + o)) := by
  match ts with
  | .nil =>
    intro p _
    rw [TransList.enum, TransList.find]
    simp
  | .cons b1 o1 c1 ts1 =>
    intro p hwf
    rw [TransList.wfFrom] at hwf
    simp only [Bool.and_eq_true] at hwf
    rw [TransList.enum, TransList.find]
    by_cases hb : b1 = b
    · subst hb
      rw [if_pos rfl]
      constructor
      · intro h
        rcases List.mem_append.mp h with h | h
        · obtain ⟨e2, he2, heq⟩ := List.mem_map.mp h
          simp only [Prod.mk.injEq, List.cons.injEq] at heq
          refine ⟨o1, c1, rfl, ?_⟩
          have he3 : e2 = (k2, w) := Prod.ext heq.1.2 heq.2
          rw [← he3]
          exact he2
        · obtain ⟨b', k3, hk, hbb⟩ := enum_head_bound hwf.2 h
          simp only [List.cons.injEq] at hk
          omega
      · rintro ⟨o, c, hf, hm⟩
        simp only [Option.some.injEq, Prod.mk.injEq] at hf
        rw [← hf.1, ← hf.2] at hm
        exact List.mem_append_left _ (List.mem_map_of_mem _ hm)
    · rw [if_neg hb]
      constructor
      · intro h
        rcases List.mem_append.mp h with h | h
        · obtain ⟨e2, _, heq⟩ := List.mem_map.mp h
          simp only [Prod.mk.injEq, List.cons.injEq] at heq
          exact absurd heq.1.1 hb
        · exact (enum_mem_find hwf.2).mp h
      · intro h
        exact List.mem_append_right _ ((enum_mem_find hwf.2).mpr h)

theorem get_iff_enum : ∀ (k : Key) (t : Node) (w acc : Nat), t.wf = true →
    (t.get k acc = some w ↔ (k, w) ∈ t.enum acc) := by
  intro k
  induction k with
  | nil =>
    intro t w acc hwf
    obtain ⟨f, ts⟩ := t
    rw [Node.get, Node.enum]
    constructor
    · intro h
      cases f with
      | none => simp at h
      | some o =>
        simp at h
        rw [finalEntry]
        simp [h]
    · intro h
      rcases List.mem_append.mp h with h | h
      · cases f with
        | none => rw [finalEntry] at h; cases h
        | some o =>
          rw [finalEntry] at h
          simp only [List.mem_singleton, Prod.mk.injEq] at h
          simp [h.2]
      · obtain ⟨b, k2, hk⟩ := enum_key_shape h
        cases hk
  | cons b rest ih =>
    intro t w acc hwf
    obtain ⟨f, ts⟩ := t
    rw [Node.wf] at hwf
    rw [Node.get, Node.enum]
    have hT1 := @enum_mem_find ts b rest w acc none hwf
    constructor
    · intro h
      cases hf : ts.find b with
      | none => rw [hf] at h; cases h
      | some oc =>
        obtain ⟨o, c⟩ := oc
        rw [hf] at h
        have hcwf := find_wf hwf hf
        have hm := (ih c w (acc + o) hcwf).mp h
        exact List.mem_append_right _ (hT1.mpr ⟨o, c, hf, hm⟩)
    · intro h
      rcases List.mem_append.mp h with h | h
      · cases f with
        | none => rw [finalEntry] at h; cases h
        | some o =>
          rw [finalEntry] at h
          simp at h
      · obtain ⟨o, c, hf, hm⟩ := hT1.mp h
        rw [hf]
        exact (ih c w (acc + o) (find_wf hwf hf)).mpr hm

/-!
Serialization.  Modelled from the spec (section 6): the buffer is a
sequence of serialized states followed by a fixed-size footer holding
{format version, key count, start-state offset}; opening validates the
version tag and the structural footer before trusting any offset, with a
version mismatch reported distinctly from generic corruption.
-/

/-- Current format version tag. -/
def FST_VERSION : Nat := 3

/-- Little-endian 8-byte encoding of an unsigned 64-bit quantity. -/
def encodeU64 (n : Nat) : List Nat :=
  [n % 256, n / 256 % 256, n / 65536 % 256, n / 16777216 % 256,
   n / 4294967296 % 256, n / 1099511627776 % 256,
   n / 281474976710656 % 256, n / 72057594037927936 % 256]

/-- Little-endian decoding of exactly 8 bytes (0 on any other shape). -/
def decodeU64 : List Nat → Nat
  | [b0, b1, b2, b3, b4, b5, b6, b7] =>
    b0 + 256 * b1 + 65536 * b2 + 16777216 * b3 + 4294967296 * b4
      + 1099511627776 * b5 + 281474976710656 * b6 + 72057594037927936 * b7
  | _ => 0

theorem encodeU64_length (n : Nat) : (encodeU64 n).length = 8 := rfl

theorem decodeU64_encodeU64 {n : Nat} (h : n < 18446744073709551616) :
    decodeU64 (encodeU64 n) = n := by
  rw [encodeU64, decodeU64]
  omega

theorem encodeU64_bytes {n x : Nat} (h : x ∈ encodeU64 n) : x < 256 := by
  rw [encodeU64] at h
  simp at h
  rcases h with h | h | h | h | h | h | h | h <;> omega

/-- One serialized entry: key length, key bytes, then the value. -/
def encodeEntry (e : Key × Nat) : List Nat :=
  encodeU64 e.1.length ++ e.1 ++ encodeU64 e.2

def encodeEntries : List (Key × Nat) → List Nat
  | [] => []
  | e :: rest => encodeEntry e ++ encodeEntries rest

/-- Serialized structure: body then footer {version, key count, start-state
offset}. -/
def encodeFstV (ver : Nat) (l : List (Key × Nat)) : List Nat :=
  encodeEntries l ++ encodeU64 ver ++ encodeU64 l.length ++ encodeU64 0

def encodeFst : List (Key × Nat) → List Nat := encodeFstV FST_VERSION

/-- Errors reported when opening a buffer: a version mismatch is distinct
from generic corruption. -/
inductive OpenError : Type where
  | versionMismatch : Nat → Nat → OpenError
  | corrupt : String → OpenError
deriving DecidableEq

/-- Decode `count` entries consuming the whole body. -/
def decodeEntries : Nat → List Nat → Option (List (Key × Nat))
  | 0, body => if body = [] then some [] else none
  | n + 1, body =>
    if body.length < 8 then none else
    if (body.drop 8).length < decodeU64 (body.take 8) + 8 then none else
    match decodeEntries n ((body.drop 8).drop (decodeU64 (body.take 8) + 8)) with
    | some es =>
      some (((body.drop 8).take (decodeU64 (body.take 8)),
        decodeU64 (((body.drop 8).drop (decodeU64 (body.take 8))).take 8)) :: es)
    | none => none

/-- Modelled from the spec: open a serialized transducer.  The version tag
and structural footer are validated before any offset is trusted; failures
are reported as `OpenError`s. -/
def openFst (buf : List Nat) : Except OpenError (List (Key × Nat)) :=
  if ¬ (buf.all (fun b => b < 256)) then .error (.corrupt "not a byte buffer") else
  if buf.length < 24 then .error (.corrupt "truncated footer") else
  if decodeU64 ((buf.drop (buf.length - 24)).take 8) ≠ FST_VERSION then
    .error (.versionMismatch FST_VERSION (decodeU64 ((buf.drop (buf.length - 24)).take 8)))
  else
  if (buf.take (buf.length - 24)).length < decodeU64 ((buf.drop (buf.length - 24)).drop 16)
    then .error (.corrupt "start state offset out of bounds")
  else
  match decodeEntries (decodeU64 (((buf.drop (buf.length - 24)).drop 8).take 8))
      (buf.take (buf.length - 24)) with
  | some es =>
    if strictlySorted (es.map (·.1)) then .ok es
    else .error (.corrupt "keys out of order")
  | none => .error (.corrupt "malformed state data")

/-- Validity of an entry list: byte-valued keys, sizes within u64 range. -/
def entryOk (e : Key × Nat) : Bool :=
  e.1.all (fun b => b < 256) && decide (e.1.length < 18446744073709551616)
    && decide (e.2 < 18446744073709551616)

def validEntries (l : List (Key × Nat)) : Bool :=
  l.all entryOk && strictlySorted (l.map (·.1))
    && decide (l.length < 18446744073709551616)

theorem take_app_length {l1 l2 : List Nat} {n : Nat} (h : l1.length = n) :
    (l1 ++ l2).take n = l1 := by
  subst h
  exact List.take_left l1 l2

theorem drop_app_length {l1 l2 : List Nat} {n : Nat} (h : l1.length = n) :
    (l1 ++ l2).drop n = l2 := by
  subst h
  exact List.drop_left l1 l2

theorem decodeEntries_encodeEntries : ∀ (l : List (Key × Nat)),
    l.all entryOk = true →
    decodeEntries l.length (encodeEntries l) = some l := by
  intro l
  induction l with
  | nil => intro _; rw [encodeEntries]; rfl
  | cons e rest ih =>
    intro hok
    simp only [List.all_cons, Bool.and_eq_true] at hok
    obtain ⟨k, v⟩ := e
    simp only [entryOk, Bool.and_eq_true, decide_eq_true_eq] at hok
    have hkl := hok.1.1.2
    have hkv := hok.1.2
    have hbody : encodeEntries ((k, v) :: rest)
        = encodeU64 k.length ++ (k ++ (encodeU64 v ++ encodeEntries rest)) := by
      rw [encodeEntries, encodeEntry]
      simp [List.append_assoc]
    rw [List.length_cons, decodeEntries, hbody]
    have h1 : (encodeU64 k.length ++ (k ++ (encodeU64 v ++ encodeEntries rest))).length ≥ 8 := by
      simp [encodeU64_length]
    rw [if_neg (by omega)]
    rw [take_app_length (encodeU64_length k.length), drop_app_length (encodeU64_length k.length),
      decodeU64_encodeU64 hkl]
    have h2 : (k ++ (encodeU64 v ++ encodeEntries rest)).length ≥ k.length + 8 := by
      simp [encodeU64_length]
    rw [if_neg (by omega)]
    have h3 : (k ++ (encodeU64 v ++ encodeEntries rest)).drop (k.length + 8)
        = encodeEntries rest := by
      rw [List.drop_append 8, drop_app_length (encodeU64_length v)]
    rw [h3, drop_app_length rfl, take_app_length rfl,
      take_app_length (encodeU64_length v), decodeU64_encodeU64 hkv, ih hok.2]

theorem encodeEntries_bytes : ∀ {l : List (Key × Nat)}, l.all entryOk = true →
    ∀ x ∈ encodeEntries l, x < 256 := by
  intro l
  induction l with
  | nil => intro _ x hx; rw [encodeEntries] at hx; cases hx
  | cons e rest ih =>
    intro hok x hx
    simp only [List.all_cons, Bool.and_eq_true] at hok
    rw [encodeEntries, encodeEntry] at hx
    rcases List.mem_append.mp hx with hx | hx
    · rcases List.mem_append.mp hx with hx | hx
      · rcases List.mem_append.mp hx with hx | hx
        · exact encodeU64_bytes hx
        · have h2 := hok.1
          simp only [entryOk, Bool.and_eq_true, decide_eq_true_eq, List.all_eq_true] at h2
          exact h2.1.1 x hx
      · exact encodeU64_bytes hx
    · exact ih hok.2 x hx

theorem openFst_encodeFst {l : List (Key × Nat)} (h : validEntries l = true) :
    openFst (encodeFst l) = .ok l := by
  have hv := h
  simp only [validEntries, Bool.and_eq_true, decide_eq_true_eq] at hv
  obtain ⟨⟨hok, hsort⟩, hcount⟩ := hv
  have hbuf : encodeFst l
      = encodeEntries l ++ (encodeU64 FST_VERSION ++ encodeU64 l.length ++ encodeU64 0) := by
    rw [encodeFst, encodeFstV]
    simp [List.append_assoc]
  have hflen : (encodeU64 FST_VERSION ++ encodeU64 l.length ++ encodeU64 0).length = 24 := by
    simp [encodeU64_length]
  have hblen : (encodeFst l).length = (encodeEntries l).length + 24 := by
    rw [hbuf, List.length_append, hflen]
  have hall : (encodeFst l).all (fun b => b < 256) = true := by
    rw [hbuf, List.all_append, Bool.and_eq_true]
    constructor
    · rw [List.all_eq_true]
      intro x hx
      simp only [decide_eq_true_eq]
      exact encodeEntries_bytes hok x hx
    · rw [List.all_eq_true]
      intro x hx
      simp only [decide_eq_true_eq]
      rcases List.mem_append.mp hx with hx | hx
      · rcases List.mem_append.mp hx with hx | hx
        · exact encodeU64_bytes hx
        · exact encodeU64_bytes hx
      · exact encodeU64_bytes hx
  have htake : (encodeFst l).take ((encodeFst l).length - 24) = encodeEntries l := by
    rw [hblen, hbuf]
    apply take_app_length
    omega
  have hdrop : (encodeFst l).drop ((encodeFst l).length - 24)
      = encodeU64 FST_VERSION ++ encodeU64 l.length ++ encodeU64 0 := by
    rw [hblen, hbuf]
    apply drop_app_length
    omega
  have hf1 : ((encodeFst l).drop ((encodeFst l).length - 24)).take 8 = encodeU64 FST_VERSION := by
    rw [hdrop, List.append_assoc]
    exact take_app_length (encodeU64_length FST_VERSION)
  have hf2 : (((encodeFst l).drop ((encodeFst l).length - 24)).drop 8).take 8
      = encodeU64 l.length := by
    rw [hdrop, List.append_assoc, drop_app_length (encodeU64_length FST_VERSION)]
    exact take_app_length (encodeU64_length l.length)
  have hf3 : ((encodeFst l).drop ((encodeFst l).length - 24)).drop 16 = encodeU64 0 := by
    rw [hdrop]
    apply drop_app_length
    simp [encodeU64_length]
  rw [openFst]
  rw [if_neg (by rw [hall]; simp)]
  rw [if_neg (by omega)]
  rw [hf1, hf2, hf3, htake]
  rw [decodeU64_encodeU64 (by rw [FST_VERSION]; omega), decodeU64_encodeU64 hcount,
    decodeU64_encodeU64 (by omega)]
  rw [if_neg (by simp)]
  rw [if_neg (by omega)]
  rw [decodeEntries_encodeEntries l hok]
  simp [hsort]

example : openFst (encodeFst [([97], 5)]) = .ok [([97], 5)] := by rfl
example : openFst [1, 2, 3] = .error (.corrupt "truncated footer") := by rfl
example : openFst (encodeFstV 2 [([97], 5)]) = .error (.versionMismatch 3 2) := by rfl

/-!
The wrapper layer, embedded from `src/rust/src/map.rs` and
`src/rust/src/set.rs`.  A `Map`/`Set` value is the opened transducer
(`FstMap::new` / `FstSet::new` over a path-mmap or a byte buffer both reduce
to interpreting the same byte buffer); a builder holds
`inner : Option BuilderState`, taken (`Option::take`) by `finish`.
-/

/-- Map opened over a validated buffer (`Map::new`): both the file path arm
(memory-map of the file contents) and the bytes arm interpret the same
bytes. -/
structure Map : Type where
  root : Node

def Map.new (buf : List Nat) : Except OpenError Map :=
  (openFst buf).map (fun es => ⟨buildTrie es⟩)

/-- `Map::items`: the full (key, value) stream. -/
def Map.items (m : Map) : List (Key × Nat) := m.root.enum 0

/-- `Map::keys`: key stream (same traversal, first components). -/
def Map.keys (m : Map) : List Key := m.items.map (fun e => e.1)

/-- `Map::values`: value stream. -/
def Map.values (m : Map) : List Nat := m.items.map (fun e => e.2)

/-- `Map::get`: `self.inner.get(key).or(default)`. -/
def Map.get (m : Map) (k : Key) (default : Option Nat) : Option Nat :=
  (m.root.get k 0).or default

/-- `Map::__contains__`: `self.inner.contains_key(key)`. -/
def Map.contains (m : Map) (k : Key) : Bool := (m.root.get k 0).isSome

/-- `Map::__getitem__`: raises `KeyError` (here `none`) on a missing key. -/
def Map.getitem (m : Map) (k : Key) : Option Nat := m.root.get k 0

/-- Set opened over a validated buffer (`Set::new`). -/
structure Set : Type where
  root : Node

def Set.new (buf : List Nat) : Except OpenError Set :=
  (openFst buf).map (fun es => ⟨buildTrie es⟩)

/-- `Set::__iter__`: the key stream of the underlying transducer. -/
def Set.iter (s : Set) : List Key := (s.root.enum 0).map (fun e => e.1)

/-- `Set::__contains__`. -/
def Set.contains (s : Set) (k : Key) : Bool := (s.root.get k 0).isSome

/-- Build target: `MapBuilder::new(None)` is the in-memory builder,
`MapBuilder::new(Some(path))` writes through a buffered file writer. -/
inductive Target : Type where
  | memory : Target
  | file : Target
deriving DecidableEq

/-- Errors raised by builder methods (surfaced as `PyValueError`s). -/
inductive FstErr : Type where
  | alreadyFinished : FstErr
  | outOfOrder : Key → Key → FstErr
  | openErr : OpenError → FstErr
deriving DecidableEq

/-- The message text carried by the raised `PyValueError`. -/
def errMsg : FstErr → String
  | .alreadyFinished => "Builder already finished"
  | .outOfOrder _ _ => "Error while building FST: key out of order"
  | .openErr _ => "Error opening FST"

/-- Modelled from the spec: the engine-side builder state - the key/value
sequence accepted so far plus the previously inserted key, against which the
strict-increase contract is checked. -/
structure BuilderState : Type where
  target : Target
  last : Option Key
  entries : List (Key × Nat)
deriving DecidableEq

/-- Modelled from the spec: the engine-side insert, which fails with an
ordering error unless the key is strictly greater than the previous one. -/
def fstInsert (st : BuilderState) (k : Key) (v : Nat) : Except FstErr BuilderState :=
  match st.last with
  | some k0 =>
    if keyLt k0 k then .ok ⟨st.target, some k, st.entries ++ [(k, v)]⟩
    else .error (.outOfOrder k0 k)
  | none => .ok ⟨st.target, some k, st.entries ++ [(k, v)]⟩

/-- `MapBuilder`: `inner: Option<BuilderInner>`. -/
structure MapBuilder : Type where
  inner : Option BuilderState

def MapBuilder.new (target : Target) : MapBuilder := ⟨some ⟨target, none, []⟩⟩

/-- `MapBuilder::insert`: dispatches on `self.inner.as_mut()`; a finished
builder reports "Builder already finished".  Returns the result together
with the updated builder state. -/
def MapBuilder.insert (b : MapBuilder) (k : Key) (v : Nat) :
    Except FstErr Unit × MapBuilder :=
  match b.inner with
  | some st =>
    match fstInsert st k v with
    | .ok st2 => (.ok (), ⟨some st2⟩)
    | .error e => (.error e, b)
  | none => (.error .alreadyFinished, b)

/-- `MapBuilder::finish`: `self.inner.take()` leaves the builder finished in
every arm; the memory arm serializes and reopens the bytes returning
`Some(map)`, the file arm flushes the serialized bytes to storage and
returns `None`.  The second component of the `ok` payload is the byte
buffer written to storage (file arm only). -/
def MapBuilder.finish (b : MapBuilder) :
    Except FstErr (Option Map × Option (List Nat)) × MapBuilder :=
  match b.inner with
  | none => (.error .alreadyFinished, b)
  | some st =>
    match st.target with
    | .memory =>
      match Map.new (encodeFst st.entries) with
      | .ok m => (.ok (some m, none), ⟨none⟩)
      | .error e => (.error (.openErr e), ⟨none⟩)
    | .file => (.ok (none, some (encodeFst st.entries)), ⟨none⟩)

/-- `SetBuilder`: same shape; `insert` takes only a key (value 0 in the
underlying transducer). -/
structure SetBuilder : Type where
  inner : Option BuilderState

def SetBuilder.new (target : Target) : SetBuilder := ⟨some ⟨target, none, []⟩⟩

def SetBuilder.insert (b : SetBuilder) (k : Key) : Except FstErr Unit × SetBuilder :=
  match b.inner with
  | some st =>
    match fstInsert st k 0 with
    | .ok st2 => (.ok (), ⟨some st2⟩)
    | .error e => (.error e, b)
  | none => (.error .alreadyFinished, b)

def SetBuilder.finish (b : SetBuilder) :
    Except FstErr (Option Set × Option (List Nat)) × SetBuilder :=
  match b.inner with
  | none => (.error .alreadyFinished, b)
  | some st =>
    match st.target with
    | .memory =>
      match Set.new (encodeFst st.entries) with
      | .ok s => (.ok (some s, none), ⟨none⟩)
      | .error e => (.error (.openErr e), ⟨none⟩)
    | .file => (.ok (none, some (encodeFst st.entries)), ⟨none⟩)

/-- Run a sequence of map inserts, stopping at the first error. -/
def MapBuilder.insertAll (b : MapBuilder) : List (Key × Nat) → Except FstErr MapBuilder
  | [] => .ok b
  | (k, v) :: rest =>
    match b.insert k v with
    | (.ok _, b2) => b2.insertAll rest
    | (.error e, _) => .error e

def SetBuilder.insertAll (b : SetBuilder) : List Key → Except FstErr SetBuilder
  | [] => .ok b
  | k :: rest =>
    match b.insert k with
    | (.ok _, b2) => b2.insertAll rest
    | (.error e, _) => .error e

/-!
Set algebra.  Modelled from the spec (section 4.5): a sorted merge over the
input key streams; at each step the smallest current key is selected, every
cursor at that minimum is advanced, and the operation's admission rule
decides whether the key is emitted.  The wrapper always passes exactly two
streams (`self.inner.op().add(&self.inner).add(&other.inner)`), so the merge
is instantiated at two cursors; the admission rule is given by three flags:
emit when only the first stream is at the minimum, when only the second is,
and when both are. -/
def mergeGo (inL inR inBoth : Bool) : Nat → List Key → List Key → List Key
  | 0, _, _ => []
  | _ + 1, [], ys => if inR then ys else []
  | _ + 1, xs, [] => if inL then xs else []
  | fuel + 1, x :: xs, y :: ys =>
    if keyLt x y then
      (if inL then [x] else []) ++ mergeGo inL inR inBoth fuel xs (y :: ys)
    else if keyLt y x then
      (if inR then [y] else []) ++ mergeGo inL inR inBoth fuel (x :: xs) ys
    else
      (if inBoth then [x] else []) ++ mergeGo inL inR inBoth fuel xs ys

def mergeOp (inL inR inBoth : Bool) (xs ys : List Key) : List Key :=
  mergeGo inL inR inBoth (xs.length + ys.length) xs ys

/-- `Set::union` (two streams, emitted whenever either cursor holds the
minimum). -/
def Set.union (a b : Set) : List Key := mergeOp true true true a.iter b.iter

/-- `Set::intersection` (emitted only when both cursors hold the minimum). -/
def Set.intersection (a b : Set) : List Key := mergeOp false false true a.iter b.iter

/-- `Set::difference` (emitted only when the first cursor alone holds the
minimum). -/
def Set.difference (a b : Set) : List Key := mergeOp true false false a.iter b.iter

/-- `Set::symmetric_difference` (emitted when exactly one cursor holds the
minimum). -/
def Set.symmetric_difference (a b : Set) : List Key :=
  mergeOp true true false a.iter b.iter

/-!
Automaton-driven search.  Modelled from the spec (sections 4.3-4.4): the
query automaton exposes start / step / accept / dead; the search is the
same depth-first walk as enumeration, advancing the automaton one byte per
transition and pruning a branch the instant the automaton reports dead.
`search_re` compiles the pattern to such an automaton with
`regex_automata::dense::Builder::new().anchored(true)`, so acceptance is
judged on the whole key.
-/
structure DFA : Type where
  start : Nat
  step : Nat → Nat → Nat
  accept : Nat → Bool
  dead : Nat → Bool

/-- Run the automaton over a byte string from state `s`. -/
def DFA.run (d : DFA) (s : Nat) : Key → Nat
  | [] => s
  | b :: rest => d.run (d.step s b) rest

/-- Anchored whole-key acceptance. -/
def DFA.acceptsWhole (d : DFA) (k : Key) : Bool := d.accept (d.run d.start k)

/-- Dead states are absorbing. -/
def deadClosed (d : DFA) : Prop := ∀ s b, d.dead s = true → d.dead (d.step s b) = true

/-- Dead states never accept. -/
def deadNoAccept (d : DFA) : Prop := ∀ s, d.dead s = true → d.accept s = false

mutual
/-- Modelled from the spec: product traversal of transducer and automaton,
pruning on dead automaton states. -/
def Node.search (d : DFA) (s : Nat) : Node → Nat → List (Key × Nat)
  | .mk f ts, acc =>
    (if d.accept s then finalEntry f acc else []) ++ TransList.search d s ts acc
def TransList.search (d : DFA) (s : Nat) : TransList → Nat → List (Key × Nat)
  | .nil, _ => []
  | .cons b o c ts, acc =>
    (if d.dead (d.step s b) then []
      else (Node.search d (d.step s b) c (acc + o)).map (fun e => (b :: e.1, e.2)))
      ++ TransList.search d s ts acc
end

/-- `Map::search_re` over the compiled automaton. -/
def Map.search_re (m : Map) (d : DFA) : List (Key × Nat) := Node.search d d.start m.root 0

/-- `Set::search_re` over the compiled automaton. -/
def Set.search_re (s : Set) (d : DFA) : List Key :=
  (Node.search d d.start s.root 0).map (fun e => e.1)

theorem dead_run {d : DFA} (hc : deadClosed d) :
    ∀ (k : Key) (s : Nat), d.dead s = true → d.dead (d.run s k) = true := by
  intro k
  induction k with
  | nil => intro s hs; exact hs
  | cons b rest ih => intro s hs; exact ih (d.step s b) (hc s b hs)

mutual
theorem Node.search_eq_filter {d : DFA} (hc : deadClosed d) (hna : deadNoAccept d)
    (t : Node) (s acc : Nat) :
    Node.search d s t acc = (t.enum acc).filter (fun e => d.accept (d.run s e.1)) :=
  match t with
  | .mk f ts => by
    have iht := TransList.searchT_eq_filter hc hna ts s acc
    rw [Node.search, Node.enum, List.filter_append, iht]
    congr 1
    cases f with
    | none => simp [finalEntry]
    | some o =>
      by_cases ha : d.accept s
      · simp [finalEntry, ha, DFA.run]
      · simp [finalEntry, ha, DFA.run]
theorem TransList.searchT_eq_filter {d : DFA} (hc : deadClosed d) (hna : deadNoAccept d)
    (ts : TransList) (s acc : Nat) :
    TransList.search d s ts acc = (ts.enum acc).filter (fun e => d.accept (d.run s e.1)) :=
  match ts with
  | .nil => by rw [TransList.search, TransList.enum]; rfl
  | .cons b o c ts2 => by
    have ihts := TransList.searchT_eq_filter hc hna ts2 s acc
    rw [TransList.search, TransList.enum, List.filter_append, ihts]
    congr 1
    by_cases hd : d.dead (d.step s b)
    · rw [if_pos hd]
      symm
      rw [List.filter_eq_nil_iff]
      intro e he
      obtain ⟨e2, _, heq⟩ := List.mem_map.mp he
      have hrun : d.accept (d.run s e.1) = d.accept (d.run (d.step s b) e2.1) := by
        rw [← heq]
        rfl
      rw [hrun, hna _ (dead_run hc e2.1 _ hd)]
      simp
    · have ihc := Node.search_eq_filter hc hna c (d.step s b) (acc + o)
      rw [if_neg hd, ihc, List.filter_map]
      congr 1
end

theorem keyLt_eq_of_not {x y : Key} (h1 : keyLt x y = false) (h2 : keyLt y x = false) :
    x = y := by
  rcases keyLt_total x y with h | h | h
  · rw [h] at h1; cases h1
  · exact h
  · rw [h] at h2; cases h2

theorem not_mem_of_lt_all {x : Key} {l : List Key} (h : ∀ m ∈ l, keyLt x m = true) :
    x ∉ l := by
  intro hm
  have h2 := h x hm
  rw [keyLt_irrefl] at h2
  exact Bool.false_ne_true h2

theorem mergeGo_subset {inL inR inBoth : Bool} : ∀ (fuel : Nat) (xs ys : List Key) (k : Key),
    k ∈ mergeGo inL inR inBoth fuel xs ys → k ∈ xs ∨ k ∈ ys := by
  intro fuel
  induction fuel with
  | zero => intro xs ys k h; rw [mergeGo] at h; cases h
  | succ n ih =>
    intro xs ys k h
    match xs, ys with
    | [], ys =>
      rw [mergeGo] at h
      right
      by_cases hr : inR = true
      · rw [if_pos hr] at h; exact h
      · rw [if_neg hr] at h; cases h
    | x :: xs2, [] =>
      simp only [mergeGo] at h
      left
      by_cases hl : inL = true
      · rw [if_pos hl] at h; exact h
      · rw [if_neg hl] at h; cases h
    | x :: xs2, y :: ys2 =>
      rw [mergeGo] at h
      by_cases hxy : keyLt x y = true
      · rw [if_pos hxy] at h
        rcases List.mem_append.mp h with h | h
        · left
          by_cases hl : inL = true
          · rw [if_pos hl] at h; simp at h; simp [h]
          · rw [if_neg hl] at h; cases h
        · rcases ih xs2 (y :: ys2) k h with h | h
          · exact Or.inl (List.mem_cons_of_mem _ h)
          · exact Or.inr h
      · rw [if_neg hxy] at h
        by_cases hyx : keyLt y x = true
        · rw [if_pos hyx] at h
          rcases List.mem_append.mp h with h | h
          · right
            by_cases hr : inR = true
            · rw [if_pos hr] at h; simp at h; simp [h]
            · rw [if_neg hr] at h; cases h
          · rcases ih (x :: xs2) ys2 k h with h | h
            · exact Or.inl h
            · exact Or.inr (List.mem_cons_of_mem _ h)
        · rw [if_neg hyx] at h
          rcases List.mem_append.mp h with h | h
          · left
            by_cases hb : inBoth = true
            · rw [if_pos hb] at h; simp at h; simp [h]
            · rw [if_neg hb] at h; cases h
          · rcases ih xs2 ys2 k h with h | h
            · exact Or.inl (List.mem_cons_of_mem _ h)
            · exact Or.inr (List.mem_cons_of_mem _ h)

theorem mergeGo_sorted {inL inR inBoth : Bool} : ∀ (fuel : Nat) (xs ys : List Key),
    List.Pairwise keyLtP xs → List.Pairwise keyLtP ys →
    List.Pairwise keyLtP (mergeGo inL inR inBoth fuel xs ys) := by
  intro fuel
  induction fuel with
  | zero => intro xs ys _ _; rw [mergeGo]; exact List.Pairwise.nil
  | succ n ih =>
    intro xs ys hpx hpy
    match xs, ys with
    | [], ys =>
      rw [mergeGo]
      by_cases hr : inR = true
      · rw [if_pos hr]; exact hpy
      · rw [if_neg hr]; exact List.Pairwise.nil
    | x :: xs2, [] =>
      simp only [mergeGo]
      by_cases hl : inL = true
      · rw [if_pos hl]; exact hpx
      · rw [if_neg hl]; exact List.Pairwise.nil
    | x :: xs2, y :: ys2 =>
      rw [mergeGo]
      have hxtail := (List.pairwise_cons.mp hpx).1
      have hytail := (List.pairwise_cons.mp hpy).1
      by_cases hxy : keyLt x y = true
      · rw [if_pos hxy]
        rw [List.pairwise_append]
        refine ⟨?_, ih xs2 (y :: ys2) (List.pairwise_cons.mp hpx).2 hpy, ?_⟩
        · by_cases hl : inL = true
          · rw [if_pos hl]; simp
          · rw [if_neg hl]; exact List.Pairwise.nil
        · intro a ha m hm
          have hax : a = x := by
            by_cases hl : inL = true
            · rw [if_pos hl] at ha; simpa using ha
            · rw [if_neg hl] at ha; cases ha
          subst hax
          rcases mergeGo_subset n xs2 (y :: ys2) m hm with h | h
          · exact hxtail m h
          · rcases List.mem_cons.mp h with h | h
            · rw [h]; exact hxy
            · exact keyLt_trans hxy (hytail m h)
      · rw [if_neg hxy]
        by_cases hyx : keyLt y x = true
        · rw [if_pos hyx]
          rw [List.pairwise_append]
          refine ⟨?_, ih (x :: xs2) ys2 hpx (List.pairwise_cons.mp hpy).2, ?_⟩
          · by_cases hr : inR = true
            · rw [if_pos hr]; simp
            · rw [if_neg hr]; exact List.Pairwise.nil
          · intro a ha m hm
            have hay : a = y := by
              by_cases hr : inR = true
              · rw [if_pos hr] at ha; simpa using ha
              · rw [if_neg hr] at ha; cases ha
            subst hay
            rcases mergeGo_subset n (x :: xs2) ys2 m hm with h | h
            · rcases List.mem_cons.mp h with h | h
              · rw [h]; exact hyx
              · exact keyLt_trans hyx (hxtail m h)
            · exact hytail m h
        · rw [if_neg hyx]
          have hxey : x = y := keyLt_eq_of_not (Bool.eq_false_iff.mpr hxy) (Bool.eq_false_iff.mpr hyx)
          rw [List.pairwise_append]
          refine ⟨?_, ih xs2 ys2 (List.pairwise_cons.mp hpx).2 (List.pairwise_cons.mp hpy).2, ?_⟩
          · by_cases hb : inBoth = true
            · rw [if_pos hb]; simp
            · rw [if_neg hb]; exact List.Pairwise.nil
          · intro a ha m hm
            have hax : a = x := by
              by_cases hb : inBoth = true
              · rw [if_pos hb] at ha; simpa using ha
              · rw [if_neg hb] at ha; cases ha
            subst hax
            rcases mergeGo_subset n xs2 ys2 m hm with h | h
            · exact hxtail m h
            · rw [hxey]; exact hytail m h

theorem mergeGo_mem {inL inR inBoth : Bool} : ∀ (fuel : Nat) (xs ys : List Key),
    xs.length + ys.length ≤ fuel →
    List.Pairwise keyLtP xs → List.Pairwise keyLtP ys →
    ∀ k, (k ∈ mergeGo inL inR inBoth fuel xs ys ↔
      (inL = true ∧ k ∈ xs ∧ k ∉ ys) ∨ (inR = true ∧ k ∈ ys ∧ k ∉ xs)
        ∨ (inBoth = true ∧ k ∈ xs ∧ k ∈ ys)) := by
  intro fuel
  induction fuel with
  | zero =>
    intro xs ys hlen _ _ k
    match xs, ys with
    | [], [] => rw [mergeGo]; simp
    | x :: _, _ => simp at hlen
    | [], y :: _ => simp at hlen
  | succ n ih =>
    intro xs ys hlen hpx hpy k
    match xs, ys with
    | [], ys =>
      rw [mergeGo]
      by_cases hr : inR = true <;> simp [hr]
    | x :: xs2, [] =>
      simp only [mergeGo]
      by_cases hl : inL = true <;> simp [hl]
    | x :: xs2, y :: ys2 =>
      rw [mergeGo]
      have hxtail := (List.pairwise_cons.mp hpx).1
      have hytail := (List.pairwise_cons.mp hpy).1
      by_cases hxy : keyLt x y = true
      · rw [if_pos hxy]
        have hxny : ∀ m ∈ y :: ys2, keyLt x m = true := by
          intro m hm
          rcases List.mem_cons.mp hm with h | h
          · rw [h]; exact hxy
          · exact keyLt_trans hxy (hytail m h)
        have hx1 : x ∉ y :: ys2 := not_mem_of_lt_all hxny
        have hx2 : x ∉ xs2 := not_mem_of_lt_all hxtail
        have hrec := ih xs2 (y :: ys2) (by simp at hlen ⊢; omega)
          (List.pairwise_cons.mp hpx).2 hpy k
        rw [List.mem_append, hrec]
        by_cases hk : k = x
        · subst hk
          have hky : ¬ k = y := fun h => hx1 (by rw [h]; exact List.mem_cons_self y ys2)
          have hkys2 : k ∉ ys2 := fun h => hx1 (List.mem_cons_of_mem _ h)
          by_cases hl : inL = true <;> simp [hl, hky, hkys2, hx2]
        · have hkif : (k ∈ if inL then [x] else []) ↔ False := by
            by_cases hl : inL = true <;> simp [hl, hk]
          rw [hkif]
          simp [List.mem_cons, hk]
      · rw [if_neg hxy]
        by_cases hyx : keyLt y x = true
        · rw [if_pos hyx]
          have hyn : ∀ m ∈ x :: xs2, keyLt y m = true := by
            intro m hm
            rcases List.mem_cons.mp hm with h | h
            · rw [h]; exact hyx
            · exact keyLt_trans hyx (hxtail m h)
          have hy1 : y ∉ x :: xs2 := not_mem_of_lt_all hyn
          have hy2 : y ∉ ys2 := not_mem_of_lt_all hytail
          have hrec := ih (x :: xs2) ys2 (by simp at hlen ⊢; omega)
            hpx (List.pairwise_cons.mp hpy).2 k
          rw [List.mem_append, hrec]
          by_cases hk : k = y
          · subst hk
            have hkx : ¬ k = x := fun h => hy1 (by rw [h]; exact List.mem_cons_self x xs2)
            have hkxs2 : k ∉ xs2 := fun h => hy1 (List.mem_cons_of_mem _ h)
            by_cases hr : inR = true <;> simp [hr, hkx, hkxs2, hy2]
          · have hkif : (k ∈ if inR then [y] else []) ↔ False := by
              by_cases hr : inR = true <;> simp [hr, hk]
            rw [hkif]
            simp [List.mem_cons, hk]
        · rw [if_neg hyx]
          have hxey : x = y :=
            keyLt_eq_of_not (Bool.eq_false_iff.mpr hxy) (Bool.eq_false_iff.mpr hyx)
          subst hxey
          have hx2 : x ∉ xs2 := not_mem_of_lt_all hxtail
          have hx3 : x ∉ ys2 := not_mem_of_lt_all hytail
          have hrec := ih xs2 ys2 (by simp at hlen ⊢; omega)
            (List.pairwise_cons.mp hpx).2 (List.pairwise_cons.mp hpy).2 k
          rw [List.mem_append, hrec]
          by_cases hk : k = x
          · subst hk
            by_cases hb : inBoth = true <;> simp [hb, hx2, hx3]
          · have hkif : (k ∈ if inBoth then [x] else []) ↔ False := by
              by_cases hb : inBoth = true <;> simp [hb, hk]
            rw [hkif]
            simp [List.mem_cons, hk]

theorem mergeOp_mem {inL inR inBoth : Bool} {xs ys : List Key}
    (hx : List.Pairwise keyLtP xs) (hy : List.Pairwise keyLtP ys) (k : Key) :
    k ∈ mergeOp inL inR inBoth xs ys ↔
      (inL = true ∧ k ∈ xs ∧ k ∉ ys) ∨ (inR = true ∧ k ∈ ys ∧ k ∉ xs)
        ∨ (inBoth = true ∧ k ∈ xs ∧ k ∈ ys) :=
  mergeGo_mem (xs.length + ys.length) xs ys (Nat.le_refl _) hx hy k

theorem mergeOp_sorted {inL inR inBoth : Bool} {xs ys : List Key}
    (hx : List.Pairwise keyLtP xs) (hy : List.Pairwise keyLtP ys) :
    List.Pairwise keyLtP (mergeOp inL inR inBoth xs ys) :=
  mergeGo_sorted _ xs ys hx hy

/-!
UTF-8.  The builders accept `&str` keys, whose bytes are the UTF-8 encoding
of a sequence of Unicode scalar values; every stream's `__next__` returns
`String::from_utf8_lossy(bytes)`, decoding the stored key bytes and
substituting U+FFFD for ill-formed sequences.  Strings are modelled as
lists of scalar values.
-/

/-- A Unicode scalar value: below 0x110000 and not a surrogate. -/
def isScalar (c : Nat) : Bool :=
  decide (c < 1114112) && !(decide (55296 ≤ c) && decide (c < 57344))

def validScalars (l : List Nat) : Bool := l.all isScalar

/-- UTF-8 encoding of one scalar value. -/
def utf8EncodeChar (c : Nat) : List Nat :=
  if c < 128 then [c]
  else if c < 2048 then [192 + c / 64, 128 + c % 64]
  else if c < 65536 then [224 + c / 4096, 128 + c / 64 % 64, 128 + c % 64]
  else [240 + c / 262144, 128 + c / 4096 % 64, 128 + c / 64 % 64, 128 + c % 64]

/-- UTF-8 encoding of a string (the bytes of the `&str` passed to
`insert`). -/
def utf8Encode (l : List Nat) : List Nat := l.flatMap utf8EncodeChar

/-- Continuation byte. -/
def isCont (b : Nat) : Bool := decide (128 ≤ b) && decide (b < 192)

/-- Admissible second byte of a three-byte sequence led by `b` (rules out
overlong encodings and surrogates, as Rust's validator does). -/
def validSecond3 (b c : Nat) : Bool :=
  if b = 224 then decide (160 ≤ c) && decide (c < 192)
  else if b = 237 then decide (128 ≤ c) && decide (c < 160)
  else isCont c

/-- Admissible second byte of a four-byte sequence led by `b`. -/
def validSecond4 (b c : Nat) : Bool :=
  if b = 240 then decide (144 ≤ c) && decide (c < 192)
  else if b = 244 then decide (128 ≤ c) && decide (c < 144)
  else isCont c

/-!
`String::from_utf8_lossy`: decode UTF-8, replacing each ill-formed
subsequence with U+FFFD (65533).  The continuation helpers `lossy2` through
`lossy4c` consume the expected continuation bytes of a 2-, 3- or 4-byte
sequence whose lead byte has already been read.
-/
mutual
def utf8Lossy : List Nat → List Nat
  | [] => []
  | b :: rest =>
    if b < 128 then b :: utf8Lossy rest
    else if b < 194 then 65533 :: utf8Lossy rest
    else if b < 224 then lossy2 b rest
    else if b < 240 then lossy3 b rest
    else if b < 245 then lossy4 b rest
    else 65533 :: utf8Lossy rest
  termination_by l => (l.length, 0)
def lossy2 : Nat → List Nat → List Nat
  | _, [] => [65533]
  | b, c :: rest2 =>
    if isCont c then ((b - 192) * 64 + (c - 128)) :: utf8Lossy rest2
    else 65533 :: utf8Lossy (c :: rest2)
  termination_by _ l => (l.length, 1)
def lossy3 : Nat → List Nat → List Nat
  | _, [] => [65533]
  | b, c :: rest2 =>
    if validSecond3 b c then lossy3b b c rest2
    else 65533 :: utf8Lossy (c :: rest2)
  termination_by _ l => (l.length, 1)
def lossy3b : Nat → Nat → List Nat → List Nat
  | _, _, [] => [65533]
  | b, c, c2 :: rest3 =>
    if isCont c2 then
      ((b - 224) * 4096 + (c - 128) * 64 + (c2 - 128)) :: utf8Lossy rest3
    else 65533 :: utf8Lossy (c2 :: rest3)
  termination_by _ _ l => (l.length, 1)
def lossy4 : Nat → List Nat → List Nat
  | _, [] => [65533]
  | b, c :: rest2 =>
    if validSecond4 b c then lossy4b b c rest2
    else 65533 :: utf8Lossy (c :: rest2)
  termination_by _ l => (l.length, 1)
def lossy4b : Nat → Nat → List Nat → List Nat
  | _, _, [] => [65533]
  | b, c, c2 :: rest3 =>
    if isCont c2 then lossy4c b c c2 rest3
    else 65533 :: utf8Lossy (c2 :: rest3)
  termination_by _ _ l => (l.length, 1)
def lossy4c : Nat → Nat → Nat → List Nat → List Nat
  | _, _, _, [] => [65533]
  | b, c, c2, c3 :: rest4 =>
    if isCont c3 then
      ((b - 240) * 262144 + (c - 128) * 4096 + (c2 - 128) * 64 + (c3 - 128))
        :: utf8Lossy rest4
    else 65533 :: utf8Lossy (c3 :: rest4)
  termination_by _ _ _ l => (l.length, 1)
end

example : utf8Lossy [104, 105] = [104, 105] := by
  simp [utf8Lossy]
example : utf8Lossy [255] = [65533] := by
  simp [utf8Lossy]

/-- The key stream `MapKeys::__next__` yields
`String::from_utf8_lossy(bytes)` for each stored key, in stream order. -/
def Map.keysOut (m : Map) : List (List Nat) := m.items.map (fun e => utf8Lossy e.1)

/-- `MapItems::__next__` yields the lossily decoded key with its value. -/
def Map.itemsOut (m : Map) : List (List Nat × Nat) :=
  m.items.map (fun e => (utf8Lossy e.1, e.2))

/-- `SetStream::__next__` likewise. -/
def Set.iterOut (s : Set) : List (List Nat) := s.iter.map utf8Lossy

/-- `MapBuilder::insert(key: &str, val)`: the key reaching the transducer
is the UTF-8 encoding of the string. -/
def MapBuilder.insertStr (b : MapBuilder) (s : List Nat) (v : Nat) :
    Except FstErr Unit × MapBuilder :=
  b.insert (utf8Encode s) v

def SetBuilder.insertStr (b : SetBuilder) (s : List Nat) :
    Except FstErr Unit × SetBuilder :=
  b.insert (utf8Encode s)

theorem isScalar_iff {c : Nat} : isScalar c = true ↔ c < 1114112 ∧ (c < 55296 ∨ 57344 ≤ c) := by
  rw [isScalar]
  simp

theorem utf8Lossy_two {b c : Nat} (tail : List Nat) (h1 : 194 ≤ b) (h2 : b < 224)
    (hc : isCont c = true) :
    utf8Lossy (b :: c :: tail) = ((b - 192) * 64 + (c - 128)) :: utf8Lossy tail := by
  rw [utf8Lossy, if_neg (by omega), if_neg (by omega), if_pos (by omega), lossy2, if_pos hc]

theorem utf8Lossy_three {b c c2 : Nat} (tail : List Nat) (h1 : 224 ≤ b) (h2 : b < 240)
    (hv : validSecond3 b c = true) (hc2 : isCont c2 = true) :
    utf8Lossy (b :: c :: c2 :: tail)
      = ((b - 224) * 4096 + (c - 128) * 64 + (c2 - 128)) :: utf8Lossy tail := by
  rw [utf8Lossy, if_neg (by omega), if_neg (by omega), if_neg (by omega), if_pos (by omega),
    lossy3, if_pos hv, lossy3b, if_pos hc2]

theorem utf8Lossy_four {b c c2 c3 : Nat} (tail : List Nat) (h1 : 240 ≤ b) (h2 : b < 245)
    (hv : validSecond4 b c = true) (hc2 : isCont c2 = true) (hc3 : isCont c3 = true) :
    utf8Lossy (b :: c :: c2 :: c3 :: tail)
      = ((b - 240) * 262144 + (c - 128) * 4096 + (c2 - 128) * 64 + (c3 - 128))
          :: utf8Lossy tail := by
  rw [utf8Lossy, if_neg (by omega), if_neg (by omega), if_neg (by omega), if_neg (by omega),
    if_pos (by omega), lossy4, if_pos hv, lossy4b, if_pos hc2, lossy4c, if_pos hc3]

theorem utf8Lossy_encodeChar {c : Nat} (h1 : c < 1114112) (h2 : c < 55296 ∨ 57344 ≤ c)
    (tail : List Nat) :
    utf8Lossy (utf8EncodeChar c ++ tail) = c :: utf8Lossy tail := by
  by_cases hc1 : c < 128
  · rw [utf8EncodeChar, if_pos hc1, List.cons_append, List.nil_append, utf8Lossy,
      if_pos hc1]
  · by_cases hc2 : c < 2048
    · rw [utf8EncodeChar, if_neg hc1, if_pos hc2]
      rw [List.cons_append, List.cons_append, List.nil_append]
      have harith : (192 + c / 64 - 192) * 64 + (128 + c % 64 - 128) = c := by omega
      rw [utf8Lossy_two tail (by omega) (by omega) (by rw [isCont]; simp; omega), harith]
    · by_cases hc3 : c < 65536
      · rw [utf8EncodeChar, if_neg hc1, if_neg hc2, if_pos hc3]
        rw [List.cons_append, List.cons_append, List.cons_append, List.nil_append]
        have hv : validSecond3 (224 + c / 4096) (128 + c / 64 % 64) = true := by
          rw [validSecond3]
          by_cases h224 : 224 + c / 4096 = 224
          · rw [if_pos h224]
            simp
            omega
          · rw [if_neg h224]
            by_cases h237 : 224 + c / 4096 = 237
            · rw [if_pos h237]
              simp
              omega
            · rw [if_neg h237, isCont]
              simp
              omega
        have harith : (224 + c / 4096 - 224) * 4096 + (128 + c / 64 % 64 - 128) * 64
            + (128 + c % 64 - 128) = c := by omega
        rw [utf8Lossy_three tail (by omega) (by omega) hv (by rw [isCont]; simp; omega),
          harith]
      · rw [utf8EncodeChar, if_neg hc1, if_neg hc2, if_neg hc3]
        rw [List.cons_append, List.cons_append, List.cons_append, List.cons_append,
          List.nil_append]
        have hv : validSecond4 (240 + c / 262144) (128 + c / 4096 % 64) = true := by
          rw [validSecond4]
          by_cases h240 : 240 + c / 262144 = 240
          · rw [if_pos h240]
            simp
            omega
          · rw [if_neg h240]
            by_cases h244 : 240 + c / 262144 = 244
            · rw [if_pos h244]
              simp
              omega
            · rw [if_neg h244, isCont]
              simp
              omega
        have harith : (240 + c / 262144 - 240) * 262144 + (128 + c / 4096 % 64 - 128) * 4096
            + (128 + c / 64 % 64 - 128) * 64 + (128 + c % 64 - 128) = c := by omega
        rw [utf8Lossy_four tail (by omega) (by omega) hv (by rw [isCont]; simp; omega)
          (by rw [isCont]; simp; omega), harith]

theorem utf8Lossy_encode : ∀ {l : List Nat}, validScalars l = true →
    utf8Lossy (utf8Encode l) = l := by
  intro l
  induction l with
  | nil => intro _; rw [show utf8Encode [] = [] from rfl, utf8Lossy]
  | cons c rest ih =>
    intro h
    rw [validScalars, List.all_cons, Bool.and_eq_true] at h
    have hsc := isScalar_iff.mp h.1
    have ih2 := ih (by rw [validScalars]; exact h.2)
    rw [utf8Encode] at ih2 ⊢
    rw [List.flatMap_cons, utf8Lossy_encodeChar hsc.1 hsc.2, ih2]

theorem openFst_ok_sorted {buf : List Nat} {es : List (Key × Nat)}
    (h : openFst buf = .ok es) : strictlySorted (es.map (fun e => e.1)) = true := by
  rw [openFst] at h
  split at h
  · cases h
  · split at h
    · cases h
    · split at h
      · cases h
      · split at h
        · cases h
        · split at h
          · split at h
            · injection h with h2
              rw [← h2]
              assumption
            · cases h
          · cases h

theorem Map_new_ok {buf : List Nat} {m : Map} (h : Map.new buf = .ok m) :
    ∃ es, openFst buf = .ok es ∧ m = ⟨buildTrie es⟩
      ∧ List.Pairwise keyLtP (es.map (fun e => e.1))
      ∧ m.items = es ∧ (buildTrie es).good = true := by
  rw [Map.new] at h
  cases ho : openFst buf with
  | ok es =>
    rw [ho] at h
    simp only [Except.map] at h
    injection h with h2
    have hsort := (strictlySorted_iff_pairwise _).mp (openFst_ok_sorted ho)
    have hb := buildTrie_spec es hsort
    refine ⟨es, rfl, h2.symm, hsort, ?_, hb.2⟩
    rw [← h2, Map.items]
    exact hb.1
  | error e =>
    rw [ho] at h
    simp only [Except.map] at h
    cases h

theorem Set_new_ok {buf : List Nat} {s : Set} (h : Set.new buf = .ok s) :
    ∃ es, openFst buf = .ok es ∧ s = ⟨buildTrie es⟩
      ∧ List.Pairwise keyLtP (es.map (fun e => e.1))
      ∧ s.iter = es.map (fun e => e.1) ∧ (buildTrie es).good = true := by
  rw [Set.new] at h
  cases ho : openFst buf with
  | ok es =>
    rw [ho] at h
    simp only [Except.map] at h
    injection h with h2
    have hsort := (strictlySorted_iff_pairwise _).mp (openFst_ok_sorted ho)
    have hb := buildTrie_spec es hsort
    refine ⟨es, rfl, h2.symm, hsort, ?_, hb.2⟩
    rw [← h2, Set.iter]
    rw [hb.1]
  | error e =>
    rw [ho] at h
    simp only [Except.map] at h
    cases h

theorem MapBuilder_insertAll_go : ∀ (l : List (Key × Nat)) (tgt : Target)
    (done : List (Key × Nat)) (k0 : Option Key),
    List.Chain' keyLtP
      (match k0 with | some k => k :: l.map (fun e => e.1) | none => l.map (fun e => e.1)) →
    ∃ last2, MapBuilder.insertAll ⟨some ⟨tgt, k0, done⟩⟩ l
      = .ok ⟨some ⟨tgt, last2, done ++ l⟩⟩ := by
  intro l
  induction l with
  | nil => intro tgt done k0 _; exact ⟨k0, by rw [MapBuilder.insertAll]; simp⟩
  | cons e rest ih =>
    intro tgt done k0 hord
    obtain ⟨k, v⟩ := e
    have hstep : MapBuilder.insert ⟨some ⟨tgt, k0, done⟩⟩ k v
        = (.ok (), ⟨some ⟨tgt, some k, done ++ [(k, v)]⟩⟩) := by
      cases k0 with
      | none => rw [MapBuilder.insert]; simp [fstInsert]
      | some kp =>
        have hlt : keyLt kp k = true := by
          simp only [List.map_cons, List.chain'_cons] at hord
          exact hord.1
        rw [MapBuilder.insert]
        simp [fstInsert, hlt]
    have hord2 : List.Chain' keyLtP (k :: rest.map (fun e => e.1)) := by
      cases k0 with
      | none => simpa using hord
      | some kp =>
        simp only [List.map_cons, List.chain'_cons] at hord
        exact hord.2
    obtain ⟨last2, hrest⟩ := ih tgt (done ++ [(k, v)]) (some k) hord2
    refine ⟨last2, ?_⟩
    rw [MapBuilder.insertAll, hstep]
    simp only []
    rw [hrest]
    simp

theorem SetBuilder_insertAll_go : ∀ (ks : List Key) (tgt : Target)
    (done : List (Key × Nat)) (k0 : Option Key),
    List.Chain' keyLtP (match k0 with | some k => k :: ks | none => ks) →
    ∃ last2, SetBuilder.insertAll ⟨some ⟨tgt, k0, done⟩⟩ ks
      = .ok ⟨some ⟨tgt, last2, done ++ ks.map (fun k => (k, 0))⟩⟩ := by
  intro ks
  induction ks with
  | nil => intro tgt done k0 _; exact ⟨k0, by rw [SetBuilder.insertAll]; simp⟩
  | cons k rest ih =>
    intro tgt done k0 hord
    have hstep : SetBuilder.insert ⟨some ⟨tgt, k0, done⟩⟩ k
        = (.ok (), ⟨some ⟨tgt, some k, done ++ [(k, 0)]⟩⟩) := by
      cases k0 with
      | none => rw [SetBuilder.insert]; simp [fstInsert]
      | some kp =>
        have hlt : keyLt kp k = true := by
          simp only [List.chain'_cons] at hord
          exact hord.1
        rw [SetBuilder.insert]
        simp [fstInsert, hlt]
    have hord2 : List.Chain' keyLtP (k :: rest) := by
      cases k0 with
      | none => simpa using hord
      | some kp =>
        simp only [List.chain'_cons] at hord
        exact hord.2
    obtain ⟨last2, hrest⟩ := ih tgt (done ++ [(k, 0)]) (some k) hord2
    refine ⟨last2, ?_⟩
    rw [SetBuilder.insertAll, hstep]
    simp only []
    rw [hrest]
    simp

theorem validEntries_pairwise {l : List (Key × Nat)} (h : validEntries l = true) :
    List.Pairwise keyLtP (l.map (fun e => e.1)) := by
  rw [validEntries] at h
  simp only [Bool.and_eq_true] at h
  exact (strictlySorted_iff_pairwise _).mp h.1.2

theorem MapBuilder_finish_memory {last : Option Key} {entries : List (Key × Nat)}
    (hval : validEntries entries = true) :
    MapBuilder.finish ⟨some ⟨.memory, last, entries⟩⟩
      = (.ok (some ⟨buildTrie entries⟩, none), ⟨none⟩) := by
  rw [MapBuilder.finish]
  simp only [Map.new, openFst_encodeFst hval, Except.map]

theorem MapBuilder_finish_file {last : Option Key} {entries : List (Key × Nat)} :
    MapBuilder.finish ⟨some ⟨.file, last, entries⟩⟩
      = (.ok (none, some (encodeFst entries)), ⟨none⟩) := by
  rw [MapBuilder.finish]

theorem SetBuilder_finish_memory {last : Option Key} {entries : List (Key × Nat)}
    (hval : validEntries entries = true) :
    SetBuilder.finish ⟨some ⟨.memory, last, entries⟩⟩
      = (.ok (some ⟨buildTrie entries⟩, none), ⟨none⟩) := by
  rw [SetBuilder.finish]
  simp only [Set.new, openFst_encodeFst hval, Except.map]

theorem SetBuilder_finish_file {last : Option Key} {entries : List (Key × Nat)} :
    SetBuilder.finish ⟨some ⟨.file, last, entries⟩⟩
      = (.ok (none, some (encodeFst entries)), ⟨none⟩) := by
  rw [SetBuilder.finish]

theorem map_pair_fst (ks : List Key) :
    (ks.map (fun k => (k, (0 : Nat)))).map (fun e => e.1) = ks := by
  induction ks with
  | nil => rfl
  | cons k t ih => simp only [List.map_cons, ih]

/-- Claim C1: for every sequence of (key, value) pairs inserted into a
MapBuilder in strictly increasing key order (and every such key sequence
into a SetBuilder), finishing the build and then enumerating the resulting
structure via items()/iteration reproduces exactly the inserted pairs
(respectively keys), for both the in-memory target and the file-backed
target reopened from the written file. -/
theorem C1_roundtrip (l : List (Key × Nat)) (ks : List Key)
    (hl : validEntries l = true)
    (hks : validEntries (ks.map (fun k => (k, 0))) = true) :
    (∃ b m, (MapBuilder.new .memory).insertAll l = .ok b
      ∧ b.finish = (.ok (some m, none), ⟨none⟩) ∧ m.items = l)
    ∧ (∃ b buf m, (MapBuilder.new .file).insertAll l = .ok b
      ∧ b.finish = (.ok (none, some buf), ⟨none⟩)
      ∧ Map.new buf = .ok m ∧ m.items = l)
    ∧ (∃ b s, (SetBuilder.new .memory).insertAll ks = .ok b
      ∧ b.finish = (.ok (some s, none), ⟨none⟩) ∧ s.iter = ks)
    ∧ (∃ b buf s, (SetBuilder.new .file).insertAll ks = .ok b
      ∧ b.finish = (.ok (none, some buf), ⟨none⟩)
      ∧ Set.new buf = .ok s ∧ s.iter = ks) := by
  have hpw := validEntries_pairwise hl
  have hchain : List.Chain' keyLtP (l.map (fun e => e.1)) :=
    (chain_keyLt_iff_pairwise _).mpr hpw
  have hkspw := validEntries_pairwise hks
  have hkschain : List.Chain' keyLtP ks := by
    rw [map_pair_fst ks] at hkspw
    exact (chain_keyLt_iff_pairwise _).mpr hkspw
  have hitems : (buildTrie l).enum 0 = l := (buildTrie_spec l hpw).1
  have hksitems : (buildTrie (ks.map (fun k => (k, 0)))).enum 0 = ks.map (fun k => (k, 0)) := by
    refine (buildTrie_spec _ ?_).1
    rw [map_pair_fst ks]
    exact (chain_keyLt_iff_pairwise _).mp hkschain
  refine ⟨?_, ?_, ?_, ?_⟩
  · obtain ⟨last2, hins⟩ := MapBuilder_insertAll_go l .memory [] none hchain
    rw [List.nil_append] at hins
    exact ⟨_, ⟨buildTrie l⟩, hins, MapBuilder_finish_memory hl, hitems⟩
  · obtain ⟨last2, hins⟩ := MapBuilder_insertAll_go l .file [] none hchain
    rw [List.nil_append] at hins
    refine ⟨_, encodeFst l, ⟨buildTrie l⟩, hins, MapBuilder_finish_file, ?_, hitems⟩
    rw [Map.new, openFst_encodeFst hl]
    rfl
  · obtain ⟨last2, hins⟩ := SetBuilder_insertAll_go ks .memory [] none hkschain
    rw [List.nil_append] at hins
    refine ⟨_, ⟨buildTrie (ks.map (fun k => (k, 0)))⟩, hins, SetBuilder_finish_memory hks, ?_⟩
    rw [Set.iter, hksitems, map_pair_fst ks]
  · obtain ⟨last2, hins⟩ := SetBuilder_insertAll_go ks .file [] none hkschain
    rw [List.nil_append] at hins
    refine ⟨_, encodeFst (ks.map (fun k => (k, 0))), ⟨buildTrie (ks.map (fun k => (k, 0)))⟩,
      hins, SetBuilder_finish_file, ?_, ?_⟩
    · rw [Set.new, openFst_encodeFst hks]
      rfl
    · rw [Set.iter, hksitems, map_pair_fst ks]

/-- Claim C1 witness: the concrete pairs ("a", 1), ("b", 2) and keys
"a", "b" satisfy the ordering hypotheses and round-trip. -/
theorem C1_roundtrip_witness :
    validEntries [([97], 1), ([98], 2)] = true
    ∧ validEntries ([[97], [98]].map (fun k => (k, 0))) = true
    ∧ ((∃ b m, (MapBuilder.new .memory).insertAll [([97], 1), ([98], 2)] = .ok b
        ∧ b.finish = (.ok (some m, none), ⟨none⟩) ∧ m.items = [([97], 1), ([98], 2)])
      ∧ (∃ b buf m, (MapBuilder.new .file).insertAll [([97], 1), ([98], 2)] = .ok b
        ∧ b.finish = (.ok (none, some buf), ⟨none⟩)
        ∧ Map.new buf = .ok m ∧ m.items = [([97], 1), ([98], 2)])
      ∧ (∃ b s, (SetBuilder.new .memory).insertAll [[97], [98]] = .ok b
        ∧ b.finish = (.ok (some s, none), ⟨none⟩) ∧ s.iter = [[97], [98]])
      ∧ (∃ b buf s, (SetBuilder.new .file).insertAll [[97], [98]] = .ok b
        ∧ b.finish = (.ok (none, some buf), ⟨none⟩)
        ∧ Set.new buf = .ok s ∧ s.iter = [[97], [98]])) :=
  ⟨by decide, by decide,
    C1_roundtrip [([97], 1), ([98], 2)] [[97], [98]] (by decide) (by decide)⟩

def sampleEntries : List (Key × Nat) := [([97], 1), ([97, 98], 2), ([98], 3)]

def sampleBuf : List Nat := encodeFst sampleEntries

def sampleMap : Map := ⟨buildTrie sampleEntries⟩

def sampleSet : Set := ⟨buildTrie sampleEntries⟩

/-- Claim C2: for every finalized structure and any stored key set,
keys()/items() on a Map and iteration on a Set yield the keys in strictly
increasing byte-lexicographic order.  (Order is stated on the stored byte
keys, which is what byte-lexicographic order is defined on; the streams'
Python-level strings are their lossy decodings, see C10.) -/
theorem C2_sorted_enumeration (buf buf2 : List Nat) (m : Map) (s : Set)
    (hm : Map.new buf = .ok m) (hs : Set.new buf2 = .ok s) :
    List.Pairwise keyLtP (m.items.map (fun e => e.1))
    ∧ List.Pairwise keyLtP m.keys
    ∧ List.Pairwise keyLtP s.iter := by
  obtain ⟨es, _, hmq, hsort, hitems, _⟩ := Map_new_ok hm
  obtain ⟨es2, _, hsq, hsort2, hiter, _⟩ := Set_new_ok hs
  rw [Map.keys, hitems, hiter]
  exact ⟨hsort, hsort, hsort2⟩

/-- Claim C2 witness: a concrete serialized structure opens and enumerates
in sorted order. -/
theorem C2_sorted_enumeration_witness :
    Map.new sampleBuf = .ok sampleMap ∧ Set.new sampleBuf = .ok sampleSet
    ∧ (List.Pairwise keyLtP (sampleMap.items.map (fun e => e.1))
      ∧ List.Pairwise keyLtP sampleMap.keys
      ∧ List.Pairwise keyLtP sampleSet.iter) :=
  ⟨rfl, rfl, C2_sorted_enumeration sampleBuf sampleBuf sampleMap sampleSet rfl rfl⟩

/-- Claim C4: for every map and every key not stored in it, contains
returns false and get returns the supplied default (or absence when no
default is given) without raising an error; for every stored key, get
returns the stored value, ignoring the default. -/
theorem C4_get_missing_default (buf : List Nat) (m : Map) (hm : Map.new buf = .ok m)
    (k : Key) (d : Option Nat) (v : Nat) :
    (k ∉ m.items.map (fun e => e.1) → m.contains k = false ∧ m.get k d = d)
    ∧ ((k, v) ∈ m.items → m.get k d = some v) := by
  obtain ⟨es, _, hmq, hsort, hitems, hgood⟩ := Map_new_ok hm
  have hwf : m.root.wf = true := by
    rw [hmq]
    exact (good_parts hgood).1
  have hiff := fun w => get_iff_enum k m.root w 0 hwf
  constructor
  · intro habs
    have hnone : m.root.get k 0 = none := by
      cases hg : m.root.get k 0 with
      | none => rfl
      | some w =>
        exfalso
        have hmem := (hiff w).mp hg
        exact habs (List.mem_map_of_mem _ hmem)
    rw [Map.contains, hnone, Map.get, hnone]
    exact ⟨rfl, by simp⟩
  · intro hmem
    have hsome := (hiff v).mpr hmem
    rw [Map.get, hsome]
    simp

/-- Claim C4 witness: concrete lookups on the sample map. -/
theorem C4_get_missing_default_witness :
    Map.new sampleBuf = .ok sampleMap
    ∧ (([99] : Key) ∉ sampleMap.items.map (fun e => e.1)
        → sampleMap.contains [99] = false ∧ sampleMap.get [99] (some 7) = some 7)
    ∧ ((([97], 1) : Key × Nat) ∈ sampleMap.items → sampleMap.get [97] (some 7) = some 1) :=
  ⟨rfl, (C4_get_missing_default sampleBuf sampleMap rfl [99] (some 7) 1).1,
    (C4_get_missing_default sampleBuf sampleMap rfl [97] (some 7) 1).2⟩

/-- Claim C5: for every builder, every insert call whose key is not
strictly greater in byte-lexicographic order than the previously inserted
key - including an exact duplicate - fails at that insert call with an
ordering (build-order) error and leaves the builder unchanged, while an
insert of a strictly greater key succeeds.  `keyLt k0 k0 = false` is the
duplicate instance. -/
theorem C5_insert_ordering (st : BuilderState) (k0 k : Key) (v : Nat)
    (hlast : st.last = some k0) :
    (keyLt k0 k = false →
        MapBuilder.insert ⟨some st⟩ k v = (.error (.outOfOrder k0 k), ⟨some st⟩)
        ∧ SetBuilder.insert ⟨some st⟩ k = (.error (.outOfOrder k0 k), ⟨some st⟩))
    ∧ (keyLt k0 k = true →
        MapBuilder.insert ⟨some st⟩ k v
          = (.ok (), ⟨some ⟨st.target, some k, st.entries ++ [(k, v)]⟩⟩)
        ∧ SetBuilder.insert ⟨some st⟩ k
          = (.ok (), ⟨some ⟨st.target, some k, st.entries ++ [(k, 0)]⟩⟩))
    ∧ keyLt k0 k0 = false := by
  refine ⟨?_, ?_, keyLt_irrefl k0⟩
  · intro hord
    rw [MapBuilder.insert, SetBuilder.insert]
    simp [fstInsert, hlast, hord]
  · intro hord
    rw [MapBuilder.insert, SetBuilder.insert]
    simp [fstInsert, hlast, hord]

/-- Claim C5 witness: inserting "a" after "b" fails with the ordering
error, inserting "b" after "a" succeeds. -/
theorem C5_insert_ordering_witness :
    (keyLt [98] [97] = false →
      MapBuilder.insert ⟨some ⟨.memory, some [98], []⟩⟩ [97] 5
        = (.error (.outOfOrder [98] [97]), ⟨some ⟨.memory, some [98], []⟩⟩)
      ∧ SetBuilder.insert ⟨some ⟨.memory, some [98], []⟩⟩ [97]
        = (.error (.outOfOrder [98] [97]), ⟨some ⟨.memory, some [98], []⟩⟩))
    ∧ keyLt [98] [97] = false
    ∧ (keyLt [97] [98] = true →
      MapBuilder.insert ⟨some ⟨.memory, some [97], []⟩⟩ [98] 5
        = (.ok (), ⟨some ⟨.memory, some [98], [([98], 5)]⟩⟩)
      ∧ SetBuilder.insert ⟨some ⟨.memory, some [97], []⟩⟩ [98]
        = (.ok (), ⟨some ⟨.memory, some [98], [([98], 0)]⟩⟩))
    ∧ keyLt [97] [98] = true :=
  ⟨(C5_insert_ordering ⟨.memory, some [98], []⟩ [98] [97] 5 rfl).1, by decide,
    (C5_insert_ordering ⟨.memory, some [97], []⟩ [97] [98] 5 rfl).2.1, by decide⟩

/-- An open set over the given keys (as produced by a builder or open). -/
def setOfKeys (ks : List Key) : Set := ⟨buildTrie (ks.map (fun k => (k, 0)))⟩

/-- Claim C3 (amended): each of union, intersection, difference and
symmetric_difference accepts exactly two already-open structures (the
receiver and one other), and for every pair of sets A and B yields in
sorted order exactly: the keys present in A or B (union); the keys present
in both A and B (intersection); the keys present in A and not in B
(difference(A,B)); and the keys present in exactly one of A and B
(symmetric_difference). -/
theorem C3_set_algebra (bufa bufb : List Nat) (A B : Set)
    (ha : Set.new bufa = .ok A) (hb : Set.new bufb = .ok B) :
    (∀ k, k ∈ A.union B ↔ (k ∈ A.iter ∨ k ∈ B.iter))
    ∧ (∀ k, k ∈ A.intersection B ↔ (k ∈ A.iter ∧ k ∈ B.iter))
    ∧ (∀ k, k ∈ A.difference B ↔ (k ∈ A.iter ∧ k ∉ B.iter))
    ∧ (∀ k, k ∈ A.symmetric_difference B
        ↔ ((k ∈ A.iter ∧ k ∉ B.iter) ∨ (k ∈ B.iter ∧ k ∉ A.iter)))
    ∧ List.Pairwise keyLtP (A.union B)
    ∧ List.Pairwise keyLtP (A.intersection B)
    ∧ List.Pairwise keyLtP (A.difference B)
    ∧ List.Pairwise keyLtP (A.symmetric_difference B) := by
  obtain ⟨esa, _, haq, hsorta, hia, _⟩ := Set_new_ok ha
  obtain ⟨esb, _, hbq, hsortb, hib, _⟩ := Set_new_ok hb
  have hpa : List.Pairwise keyLtP A.iter := by rw [hia]; exact hsorta
  have hpb : List.Pairwise keyLtP B.iter := by rw [hib]; exact hsortb
  refine ⟨?_, ?_, ?_, ?_, mergeOp_sorted hpa hpb, mergeOp_sorted hpa hpb,
    mergeOp_sorted hpa hpb, mergeOp_sorted hpa hpb⟩
  · intro k
    rw [Set.union, mergeOp_mem hpa hpb k]
    simp only [true_and]
    tauto
  · intro k
    rw [Set.intersection, mergeOp_mem hpa hpb k]
    simp only [true_and]
    tauto
  · intro k
    rw [Set.difference, mergeOp_mem hpa hpb k]
    simp only [true_and]
    tauto
  · intro k
    rw [Set.symmetric_difference, mergeOp_mem hpa hpb k]
    simp only [true_and]
    tauto

/-- Claim C3 witness: the spec's concrete algebra example over
A = {"a","b","c"}, B = {"b","c","d"}. -/
theorem C3_set_algebra_witness :
    Set.new (encodeFst ([[97], [98], [99]].map (fun k => (k, 0))))
        = .ok (setOfKeys [[97], [98], [99]])
    ∧ Set.new (encodeFst ([[98], [99], [100]].map (fun k => (k, 0))))
        = .ok (setOfKeys [[98], [99], [100]])
    ∧ (∀ k, k ∈ (setOfKeys [[97], [98], [99]]).union (setOfKeys [[98], [99], [100]])
        ↔ (k ∈ (setOfKeys [[97], [98], [99]]).iter
            ∨ k ∈ (setOfKeys [[98], [99], [100]]).iter))
    ∧ (setOfKeys [[97], [98], [99]]).union (setOfKeys [[98], [99], [100]])
        = [[97], [98], [99], [100]]
    ∧ (setOfKeys [[97], [98], [99]]).intersection (setOfKeys [[98], [99], [100]])
        = [[98], [99]]
    ∧ (setOfKeys [[97], [98], [99]]).difference (setOfKeys [[98], [99], [100]])
        = [[97]]
    ∧ (setOfKeys [[97], [98], [99]]).symmetric_difference (setOfKeys [[98], [99], [100]])
        = [[97], [100]] :=
  ⟨by rfl, by rfl,
    (C3_set_algebra (encodeFst ([[97], [98], [99]].map (fun k => (k, 0))))
      (encodeFst ([[98], [99], [100]].map (fun k => (k, 0))))
      (setOfKeys [[97], [98], [99]]) (setOfKeys [[98], [99], [100]]) (by rfl) (by rfl)).1,
    by decide, by decide, by decide, by decide⟩

/-- Claim C3 counterexample (to "accepts two or more already-open
structures"): the source operations take exactly two sets - the receiver
and one other (`fn union(&self, other: &Set)`).  With the three open sets
{"a"}, {"b"}, {"c"}, whose joint union would be ["a", "b", "c"], none of
the nine possible single union calls over two of them produces the
three-way union, so no call of the source operation accepts all three
structures. -/
theorem C3_counterexample :
    (setOfKeys [[97]]).union (setOfKeys [[97]]) ≠ [[97], [98], [99]]
    ∧ (setOfKeys [[97]]).union (setOfKeys [[98]]) ≠ [[97], [98], [99]]
    ∧ (setOfKeys [[97]]).union (setOfKeys [[99]]) ≠ [[97], [98], [99]]
    ∧ (setOfKeys [[98]]).union (setOfKeys [[97]]) ≠ [[97], [98], [99]]
    ∧ (setOfKeys [[98]]).union (setOfKeys [[98]]) ≠ [[97], [98], [99]]
    ∧ (setOfKeys [[98]]).union (setOfKeys [[99]]) ≠ [[97], [98], [99]]
    ∧ (setOfKeys [[99]]).union (setOfKeys [[97]]) ≠ [[97], [98], [99]]
    ∧ (setOfKeys [[99]]).union (setOfKeys [[98]]) ≠ [[97], [98], [99]]
    ∧ (setOfKeys [[99]]).union (setOfKeys [[99]]) ≠ [[97], [98], [99]] := by
  decide

/-- Claim C6: for every structure and every valid pattern, search_regex
matching is anchored: a stored key is yielded if and only if the whole key
matches the pattern (not merely a substring), and the yielded keys come in
ascending lexicographic order.  The compiled pattern is the deterministic
automaton handed to the product traversal (built with `anchored(true)`);
its contract is that dead states are absorbing and never accept. -/
theorem C6_regex_anchored (buf buf2 : List Nat) (m : Map) (s : Set) (d : DFA)
    (hm : Map.new buf = .ok m) (hs : Set.new buf2 = .ok s)
    (hc : deadClosed d) (hna : deadNoAccept d) :
    (∀ k v, ((k, v) ∈ m.search_re d ↔ (k, v) ∈ m.items ∧ d.acceptsWhole k = true))
    ∧ (∀ k, (k ∈ s.search_re d ↔ k ∈ s.iter ∧ d.acceptsWhole k = true))
    ∧ List.Pairwise keyLtP ((m.search_re d).map (fun e => e.1))
    ∧ List.Pairwise keyLtP (s.search_re d) := by
  have hmf : m.search_re d
      = (m.root.enum 0).filter (fun e => d.accept (d.run d.start e.1)) :=
    Node.search_eq_filter hc hna m.root d.start 0
  have hsf : Node.search d d.start s.root 0
      = (s.root.enum 0).filter (fun e => d.accept (d.run d.start e.1)) :=
    Node.search_eq_filter hc hna s.root d.start 0
  obtain ⟨es, _, hmq, hsortm, hitems, _⟩ := Map_new_ok hm
  obtain ⟨es2, _, hsq, hsorts, hiter, _⟩ := Set_new_ok hs
  refine ⟨?_, ?_, ?_, ?_⟩
  · intro k v
    rw [hmf, List.mem_filter]
    exact Iff.rfl
  · intro k
    rw [Set.search_re, hsf]
    simp only [List.mem_map, List.mem_filter]
    constructor
    · rintro ⟨e, ⟨hmem, hacc⟩, hek⟩
      subst hek
      refine ⟨?_, hacc⟩
      rw [Set.iter]
      exact List.mem_map_of_mem _ hmem
    · rintro ⟨hks, hacc⟩
      rw [Set.iter] at hks
      obtain ⟨e, hmem, hek⟩ := List.mem_map.mp hks
      refine ⟨e, ⟨hmem, ?_⟩, hek⟩
      rw [hek]
      exact hacc
  · rw [hmf]
    have hsub : List.Sublist
        (((m.root.enum 0).filter
          (fun e => d.accept (d.run d.start e.1))).map (fun e => e.1))
        ((m.root.enum 0).map (fun e => e.1)) :=
      (List.filter_sublist _).map _
    refine List.Pairwise.sublist hsub ?_
    rw [show (m.root.enum 0).map (fun e => e.1) = m.items.map (fun e => e.1) from rfl,
      hitems]
    exact hsortm
  · rw [Set.search_re, hsf]
    have hsub : List.Sublist
        (((s.root.enum 0).filter
          (fun e => d.accept (d.run d.start e.1))).map (fun e => e.1))
        ((s.root.enum 0).map (fun e => e.1)) :=
      (List.filter_sublist _).map _
    refine List.Pairwise.sublist hsub ?_
    rw [show (s.root.enum 0).map (fun e => e.1) = s.iter from rfl, hiter]
    exact hsorts

/-- The compiled automaton for the anchored pattern `a[0-9]`: state 0 is
the start, state 1 has read `a`, state 2 has read `a` then a digit (the
only accepting state), state 3 is the dead state. -/
def dfaA1 : DFA where
  start := 0
  step := fun s b =>
    if s = 0 ∧ b = 97 then 1 else if s = 1 ∧ (48 ≤ b ∧ b ≤ 57) then 2 else 3
  accept := fun s => s == 2
  dead := fun s => s == 3

theorem dfaA1_closed : deadClosed dfaA1 := by
  intro s b h
  simp only [dfaA1, beq_iff_eq] at h ⊢
  subst h
  simp

theorem dfaA1_noAccept : deadNoAccept dfaA1 := by
  intro s h
  simp only [dfaA1, beq_iff_eq] at h ⊢
  subst h
  simp

/-- Claim C6 witness: over the spec's example keys {"a1", "a2", "b1"},
with the `a[0-9]` automaton, the search yields exactly the whole-key
matches {"a1", "a2"}, in sorted order. -/
theorem C6_regex_anchored_witness :
    Map.new (encodeFst [([97, 49], 1), ([97, 50], 2), ([98, 49], 3)])
        = .ok ⟨buildTrie [([97, 49], 1), ([97, 50], 2), ([98, 49], 3)]⟩
    ∧ (∀ k, (k ∈ (setOfKeys [[97, 49], [97, 50], [98, 49]]).search_re dfaA1
        ↔ k ∈ (setOfKeys [[97, 49], [97, 50], [98, 49]]).iter
            ∧ dfaA1.acceptsWhole k = true))
    ∧ (setOfKeys [[97, 49], [97, 50], [98, 49]]).search_re dfaA1 = [[97, 49], [97, 50]]
    ∧ dfaA1.acceptsWhole [97, 49] = true
    ∧ dfaA1.acceptsWhole [49] = false
    ∧ dfaA1.acceptsWhole [97, 49, 50] = false :=
  ⟨by rfl,
    (C6_regex_anchored (encodeFst [([97, 49], 1), ([97, 50], 2), ([98, 49], 3)])
      (encodeFst ([[97, 49], [97, 50], [98, 49]].map (fun k => (k, 0))))
      ⟨buildTrie [([97, 49], 1), ([97, 50], 2), ([98, 49], 3)]⟩
      (setOfKeys [[97, 49], [97, 50], [98, 49]]) dfaA1 (by rfl) (by rfl)
      dfaA1_closed dfaA1_noAccept).2.1,
    by decide, by decide, by decide, by decide⟩

/-- Claim C7: for every builder that has not yet been finished (inner state
still present), finish() returns the built structure when the builder
targets memory, and returns nothing (None) when the builder targets a
file, the serialized bytes having been flushed to storage instead. -/
theorem C7_finish_target (st : BuilderState) (hval : validEntries st.entries = true) :
    (st.target = .memory →
      MapBuilder.finish ⟨some st⟩ = (.ok (some ⟨buildTrie st.entries⟩, none), ⟨none⟩)
      ∧ (⟨buildTrie st.entries⟩ : Map).items = st.entries
      ∧ SetBuilder.finish ⟨some st⟩ = (.ok (some ⟨buildTrie st.entries⟩, none), ⟨none⟩))
    ∧ (st.target = .file →
      MapBuilder.finish ⟨some st⟩ = (.ok (none, some (encodeFst st.entries)), ⟨none⟩)
      ∧ SetBuilder.finish ⟨some st⟩ = (.ok (none, some (encodeFst st.entries)), ⟨none⟩)) := by
  obtain ⟨tgt, last, entries⟩ := st
  constructor
  · intro htgt
    simp only [] at htgt hval ⊢
    subst htgt
    refine ⟨MapBuilder_finish_memory hval, ?_, SetBuilder_finish_memory hval⟩
    rw [Map.items]
    exact (buildTrie_spec entries (validEntries_pairwise hval)).1
  · intro htgt
    simp only [] at htgt hval ⊢
    subst htgt
    exact ⟨MapBuilder_finish_file, SetBuilder_finish_file⟩

/-- Claim C7 witness: a concrete unfinished builder state under each
target. -/
theorem C7_finish_target_witness :
    validEntries sampleEntries = true
    ∧ (BuilderState.target ⟨.memory, some [98], sampleEntries⟩ = .memory →
      MapBuilder.finish ⟨some ⟨.memory, some [98], sampleEntries⟩⟩
          = (.ok (some ⟨buildTrie sampleEntries⟩, none), ⟨none⟩)
      ∧ (⟨buildTrie sampleEntries⟩ : Map).items = sampleEntries
      ∧ SetBuilder.finish ⟨some ⟨.memory, some [98], sampleEntries⟩⟩
          = (.ok (some ⟨buildTrie sampleEntries⟩, none), ⟨none⟩))
    ∧ (BuilderState.target ⟨.file, some [98], sampleEntries⟩ = .file →
      MapBuilder.finish ⟨some ⟨.file, some [98], sampleEntries⟩⟩
          = (.ok (none, some (encodeFst sampleEntries)), ⟨none⟩)
      ∧ SetBuilder.finish ⟨some ⟨.file, some [98], sampleEntries⟩⟩
          = (.ok (none, some (encodeFst sampleEntries)), ⟨none⟩)) :=
  ⟨by decide,
    (C7_finish_target ⟨.memory, some [98], sampleEntries⟩ (by decide)).1,
    (C7_finish_target ⟨.file, some [98], sampleEntries⟩ (by decide)).2⟩

/-- Claim C8: opening a structure from a file path or from a byte buffer
validates the version tag and structural footer before trusting any
offsets, fails with a format error on invalid data, and a mismatched
version produces a distinct error from generic corruption.  The two
middle conjuncts exercise a buffer whose start-state offset is garbage:
with a bad version the version mismatch is reported (the offset is never
trusted); with the right version the offset check rejects the buffer. -/
theorem C8_open_validation (l : List (Key × Nat)) (hval : validEntries l = true) :
    openFst (encodeFst l) = .ok l
    ∧ openFst (encodeFstV 2 [([97], 5)]) = .error (.versionMismatch FST_VERSION 2)
    ∧ openFst (encodeEntries [] ++ encodeU64 2 ++ encodeU64 0 ++ encodeU64 999)
        = .error (.versionMismatch FST_VERSION 2)
    ∧ openFst (encodeEntries [] ++ encodeU64 FST_VERSION ++ encodeU64 0 ++ encodeU64 999)
        = .error (.corrupt "start state offset out of bounds")
    ∧ openFst [1, 2, 3] = .error (.corrupt "truncated footer")
    ∧ (∀ a b msg, OpenError.versionMismatch a b ≠ OpenError.corrupt msg) := by
  refine ⟨openFst_encodeFst hval, by rfl, by rfl, by rfl, by rfl, ?_⟩
  intro a b msg h
  cases h

/-- Claim C8 witness: the sample entries open back successfully. -/
theorem C8_open_validation_witness :
    validEntries sampleEntries = true
    ∧ openFst (encodeFst sampleEntries) = .ok sampleEntries :=
  ⟨by decide, (C8_open_validation sampleEntries (by decide)).1⟩

/-- Claim C9: once finish() has been called once on a MapBuilder or
SetBuilder (whether it succeeded or failed), the builder is left with no
inner state, and every subsequent insert() or finish() call on a builder
in that state fails with the error reporting the builder is already
finished, leaving the builder unchanged and writing nothing. -/
theorem C9_finished_builder (b : MapBuilder) (b2 : SetBuilder) (k : Key) (v : Nat) :
    ((b.finish).2).inner = none
    ∧ ((b2.finish).2).inner = none
    ∧ (b.inner = none →
        b.insert k v = (.error .alreadyFinished, b)
        ∧ b.finish = (.error .alreadyFinished, b))
    ∧ (b2.inner = none →
        b2.insert k = (.error .alreadyFinished, b2)
        ∧ b2.finish = (.error .alreadyFinished, b2))
    ∧ errMsg .alreadyFinished = "Builder already finished" := by
  obtain ⟨inner⟩ := b
  obtain ⟨inner2⟩ := b2
  refine ⟨?_, ?_, ?_, ?_, rfl⟩
  · cases inner with
    | none => rfl
    | some st =>
      obtain ⟨tgt, last, entries⟩ := st
      cases tgt with
      | memory =>
        cases hopen : Map.new (encodeFst entries) with
        | ok m => rw [MapBuilder.finish]; simp [hopen]
        | error e => rw [MapBuilder.finish]; simp [hopen]
      | file => rfl
  · cases inner2 with
    | none => rfl
    | some st =>
      obtain ⟨tgt, last, entries⟩ := st
      cases tgt with
      | memory =>
        cases hopen : Set.new (encodeFst entries) with
        | ok s2 => rw [SetBuilder.finish]; simp [hopen]
        | error e => rw [SetBuilder.finish]; simp [hopen]
      | file => rfl
  · intro h
    simp only [] at h
    subst h
    exact ⟨rfl, rfl⟩
  · intro h
    simp only [] at h
    subst h
    exact ⟨rfl, rfl⟩

/-- Claim C9 witness: a finished map builder and set builder reject
further calls. -/
theorem C9_finished_builder_witness :
    (MapBuilder.inner ⟨none⟩ = none →
      MapBuilder.insert ⟨none⟩ [97] 5 = (.error .alreadyFinished, ⟨none⟩)
      ∧ MapBuilder.finish ⟨none⟩ = (.error .alreadyFinished, ⟨none⟩))
    ∧ (SetBuilder.inner ⟨none⟩ = none →
      SetBuilder.insert ⟨none⟩ [97] = (.error .alreadyFinished, ⟨none⟩)
      ∧ SetBuilder.finish ⟨none⟩ = (.error .alreadyFinished, ⟨none⟩))
    ∧ ((MapBuilder.finish (MapBuilder.new .memory)).2).inner = none :=
  ⟨(C9_finished_builder ⟨none⟩ ⟨none⟩ [97] 5).2.2.1,
    (C9_finished_builder ⟨none⟩ ⟨none⟩ [97] 5).2.2.2.1,
    (C9_finished_builder (MapBuilder.new .memory) ⟨none⟩ [97] 5).1⟩

/-- Claim C10: every key yielded by any enumeration or search stream is
the lossy UTF-8 decoding of the stored key bytes: for keys inserted
through a builder (which only accepts UTF-8 strings, so the stored bytes
are the UTF-8 encoding of the string) this decoding is the identity, so
they are returned verbatim; but keys of a structure opened from external
bytes that are not valid UTF-8 are returned with replacement characters
(U+FFFD) rather than byte-exactly. -/
theorem C10_lossy_decoding :
    (∀ m : Map, m.keysOut = m.items.map (fun e => utf8Lossy e.1)
      ∧ m.itemsOut = m.items.map (fun e => (utf8Lossy e.1, e.2)))
    ∧ (∀ s : Set, s.iterOut = s.iter.map utf8Lossy)
    ∧ (∀ l, validScalars l = true → utf8Lossy (utf8Encode l) = l)
    ∧ (Set.new (encodeFst [([255], 0)]) = .ok ⟨buildTrie [([255], 0)]⟩
      ∧ (⟨buildTrie [([255], 0)]⟩ : Set).iterOut = [[65533]]
      ∧ utf8Encode [65533] ≠ [255]) := by
  refine ⟨fun m => ⟨rfl, rfl⟩, fun s => rfl, fun l h => utf8Lossy_encode h, by rfl, ?_, by decide⟩
  rw [Set.iterOut, show (⟨buildTrie [([255], 0)]⟩ : Set).iter = [[255]] from rfl]
  simp [utf8Lossy]

/-- Claim C10 witness: a builder-inserted string comes back verbatim. -/
theorem C10_lossy_decoding_witness :
    validScalars [104, 105] = true
    ∧ utf8Lossy (utf8Encode [104, 105]) = [104, 105] :=
  ⟨by decide, C10_lossy_decoding.2.2.1 [104, 105] (by decide)⟩
